import Mathlib

/-!
Verification of `NormalDistributionSimulation`.

A shallow embedding of `NormalDistributionSimulation.cpp`: the constructor, which runs
`numTrials` trials of `occurrencesPerTrial` coin flips and tallies them in a
`std::map<int, int>`, and `print`, which renders the tally as a bar chart.

Modelling choices:
* The `int` values of the constructor are mathematical integers (`Int`).  Every counter of
  the constructor stays between `0` and `numTrials` or `occurrencesPerTrial`, so no `int`
  operation of the constructor overflows for arguments that fit in an `int`.
* The counter `int i` of `print` is a 32-bit integer: `++i` wraps around (`wrapInt`), so for
  `occurrencesPerTrial = 2147483647` the test `i <= occurrencesPerTrial` never fails.
* `std::map<int, int>` is the list of its (key, value) pairs in ascending key order.
* `rand()` is a stream `rand : Nat → Nat` of the values the successive calls return, together
  with the number of calls made so far.
* A `double` is the rational number it denotes, and every `double` operation rounds its exact
  result to the nearest double, a tie going to the even mantissa (`roundDouble`): 53-bit
  mantissa, least exponent `-1022` with subnormals below, and `2 ^ 1024` standing for
  infinity.  The conversion of an `int` to `double` is exact.  A `scale` that is not a number
  (NaN) is outside the model.
* `std::cout` is the string written so far.
* `print` can loop forever, so its loops are step-indexed by `fuel`.
-/

/-- Contents of a `std::map<int, int>`: its (key, value) pairs, ascending by key. -/
abbrev StdMap := List (Int × Int)

namespace StdMap

/-- Ordered search, as `std::map::find`: the value stored under `k`, if any. -/
def find : StdMap → Int → Option Int
  | [], _ => none
  | (k', v') :: rest, k =>
    if k < k' then none else if k = k' then some v' else find rest k

/-- Store `v` under `k`, keeping the keys in ascending order: overwrite the entry of `k` when
there is one, insert a new entry otherwise. -/
def put : StdMap → Int → Int → StdMap
  | [], k, v => [(k, v)]
  | (k', v') :: rest, k, v =>
    if k < k' then (k, v) :: (k', v') :: rest
    else if k = k' then (k, v) :: rest
    else (k', v') :: put rest k v

/-- Effect of `m[k]` on the map: a missing key is inserted with the value `0`. -/
def subscript (m : StdMap) (k : Int) : StdMap :=
  match find m k with
  | some _ => m
  | none => put m k 0

/-- Value read through `m[k]`: the stored value, `0` for a key that was missing. -/
def get (m : StdMap) (k : Int) : Int :=
  (find m k).getD 0

/-- The keys of the map, ascending. -/
def keys (m : StdMap) : List Int :=
  m.map Prod.fst

/-- The values of the map, in key order. -/
def values (m : StdMap) : List Int :=
  m.map Prod.snd

end StdMap

/-- How a call can end other than by returning. -/
inductive Failure where
  /-- An argument was rejected (`std::invalid_argument`). -/
  | invalidArgument
  /-- The step budget ran out while a loop was still running. -/
  | outOfFuel
  deriving DecidableEq, Repr

/-- `for (int x = x0; x < hi; ++x) body`, for a body that writes neither `x` nor `hi`.
The first argument bounds the number of iterations; callers pass `(hi - x0).toNat`, the exact
number of iterations the loop makes. -/
def forLt {σ : Type} (hi : Int) (body : Int → σ → σ) : Nat → Int → σ → σ
  | 0, _, s => s
  | n + 1, x, s => if x < hi then forLt hi body n (x + 1) (body x s) else s

/-- Round a rational to the nearest integer, a tie going to the even neighbour. -/
def roundHalfEven (t : ℚ) : Int :=
  if t - ⌊t⌋ < 1 / 2 then ⌊t⌋
  else if 1 / 2 < t - ⌊t⌋ then ⌊t⌋ + 1
  else if ⌊t⌋ % 2 = 0 then ⌊t⌋ else ⌊t⌋ + 1

/-- Exponent `e` of the doubles around a positive `a`: `2 ^ e ≤ a < 2 ^ (e + 1)`, and `-1022`
for the subnormal range below `2 ^ (-1022)`.  Doubles with this exponent are the multiples of
`2 ^ (e - 52)`. -/
def doubleExponent (a : ℚ) : Int :=
  max (Int.log 2 a) (-1022)

/-- The double nearest to a magnitude `a ≥ 0`: `a` rounded to a multiple of
`2 ^ (doubleExponent a - 52)`, a tie going to the even multiple; a result of `2 ^ 1024` or more
is infinity, for which `2 ^ 1024` stands. -/
def roundMagnitude (a : ℚ) : ℚ :=
  min ((roundHalfEven (a / 2 ^ (doubleExponent a - 52)) : ℚ) * 2 ^ (doubleExponent a - 52))
    (2 ^ (1024 : Int))

/-- The double nearest to `x` (IEEE 754 binary64, round to nearest, ties to even). -/
def roundDouble (x : ℚ) : ℚ :=
  if x < 0 then -roundMagnitude (-x) else roundMagnitude x

/-- Sum of two doubles, as `a + b` computes it. -/
def fadd (a b : ℚ) : ℚ :=
  roundDouble (a + b)

/-- Product of two doubles, as `a * b` computes it. -/
def fmul (a b : ℚ) : ℚ :=
  roundDouble (a * b)

/-- The 32-bit `int` that `x` wraps to. -/
def wrapInt (x : Int) : Int :=
  (x + 2147483648) % 4294967296 - 2147483648

/-- The object: the two parameters and the tally. -/
structure NormalDistributionSimulation where
  occurrencesPerTrial : Int
  numTrials : Int
  mapNumPositiveOccurrencesToFrequency : StdMap
  deriving DecidableEq, Repr

namespace NormalDistributionSimulation

/-- Body of the first constructor loop: `mapNumPositiveOccurrencesToFrequency[trial] = 0`. -/
def initBody (trial : Int) (m : StdMap) : StdMap :=
  StdMap.put (StdMap.subscript m trial) trial 0

/-- Body of the coin loop: `if (rand() % 2 == 0) ++numPositiveOccurrences;`.  The state is
`numPositiveOccurrences` and the number of `rand()` calls made so far. -/
def flipBody (rand : Nat → Nat) (_j : Int) (s : Int × Nat) : Int × Nat :=
  (if rand s.2 % 2 = 0 then s.1 + 1 else s.1, s.2 + 1)

/-- Body of the trial loop: flip the coin `occurrencesPerTrial` times, then
`mapNumPositiveOccurrencesToFrequency[numPositiveOccurrences]++`.  The state is the map and
the number of `rand()` calls made so far. -/
def trialBody (rand : Nat → Nat) (occurrencesPerTrial : Int) (_trial : Int)
    (s : StdMap × Nat) : StdMap × Nat :=
  let flips := forLt occurrencesPerTrial (flipBody rand) (occurrencesPerTrial - 0).toNat 0 (0, s.2)
  let numPositiveOccurrences := flips.1
  let m := StdMap.subscript s.1 numPositiveOccurrences
  (StdMap.put m numPositiveOccurrences (StdMap.get m numPositiveOccurrences + 1), flips.2)

/-- The constructor `NormalDistributionSimulation(int opt, int nt)`, run against the stream
`rand` of `rand()` results. -/
def ctor (opt nt : Int) (rand : Nat → Nat) : NormalDistributionSimulation :=
  let cleared := forLt nt initBody (nt - 0).toNat 0 []
  let tallied := forLt nt (trialBody rand opt) (nt - 0).toNat 0 (cleared, 0)
  { occurrencesPerTrial := opt, numTrials := nt,
    mapNumPositiveOccurrencesToFrequency := tallied.1 }

/-- The bar loop of `print`:
`for (double j = 0.0; j < map[i]; j = j + (1.0 * scale)) std::cout << "*";`.
Each evaluation of the loop test costs one unit of fuel and goes through `map[i]`. -/
def barLoop (i : Int) (scale : ℚ) : Nat → ℚ → StdMap → String → Except Failure (StdMap × String)
  | 0, _, _, _ => .error .outOfFuel
  | fuel + 1, j, m, out =>
    let m1 := StdMap.subscript m i
    if j < (StdMap.get m1 i : ℚ) then barLoop i scale fuel (fadd j (fmul 1 scale)) m1 (out ++ "*")
    else .ok (m1, out)

/-- The outer loop of `print`: `for (int i = 0; i <= occurrencesPerTrial; ++i)`.  The first
`Nat` is the fuel handed to each bar loop, the second bounds the iterations of this loop: when
the test still holds after that many iterations the loop is still running. -/
def printLoop (fuel : Nat) (occurrencesPerTrial : Int) (scale : ℚ) :
    Nat → Int → StdMap → String → Except Failure (StdMap × String)
  | 0, i, m, out => if i ≤ occurrencesPerTrial then .error .outOfFuel else .ok (m, out)
  | n + 1, i, m, out =>
    if i ≤ occurrencesPerTrial then
      match barLoop i scale fuel 0 m (out ++ toString i ++ "\t") with
      | .ok (m1, out1) =>
        printLoop fuel occurrencesPerTrial scale n (wrapInt (i + 1)) m1 (out1 ++ "\n")
      | .error e => .error e
    else .ok (m, out)

/-- The method `print(double scale)`: the object after the call and the text written to
`std::cout`, or `outOfFuel` when a loop is still running: a bar loop after `fuel` tests, or the
outer loop after `fuel` iterations more than the `occurrencesPerTrial + 1` it makes when `i`
does not wrap. -/
def print (fuel : Nat) (self : NormalDistributionSimulation) (scale : ℚ) :
    Except Failure (NormalDistributionSimulation × String) :=
  match printLoop fuel self.occurrencesPerTrial scale
      ((self.occurrencesPerTrial + 1 - 0).toNat + fuel) 0
      self.mapNumPositiveOccurrencesToFrequency "" with
  | .ok (m, out) => .ok ({ self with mapNumPositiveOccurrencesToFrequency := m }, out)
  | .error e => .error e

end NormalDistributionSimulation

/-- Number of positive draws of trial `t` (0-based) when every trial takes `opt` draws in
order: trial `t` owns the draws at positions `t * opt, ..., (t + 1) * opt - 1`, and a draw is
positive when the value `rand()` returned is even. -/
def positivesInTrial (rand : Nat → Nat) (opt t : Nat) : Nat :=
  (List.range opt).countP (fun j => rand (t * opt + j) % 2 == 0)

/-- Number of trials among the first `nt` in which exactly `k` draws were positive. -/
def trialsWithPositives (rand : Nat → Nat) (opt nt : Nat) (k : Int) : Nat :=
  (List.range nt).countP (fun t => (positivesInTrial rand opt t : Int) == k)

/-- A bar of `n` markers. -/
def stars (n : Nat) : String :=
  String.mk (List.replicate n '*')

/-- Number of additions of `scale` to `0` needed to reach `frequency`: the least `n` with
`frequency ≤ n * scale`, which is `⌈frequency / scale⌉` for a positive `scale`. -/
def barLength (frequency : Int) (scale : ℚ) : Nat :=
  ⌈(frequency : ℚ) / scale⌉.toNat

/-- One line of the histogram: the index, a tab, a bar of `n` markers, a line break. -/
def renderLine (i : Int) (n : Nat) : String :=
  toString i ++ "\t" ++ stars n ++ "\n"

/-- The `n` consecutive lines for the indices `i, i + 1, ..., i + n - 1`, the bar of index `k`
having `bar k` markers. -/
def renderLines (bar : Int → Nat) : Int → Nat → String
  | _, 0 => ""
  | i, n + 1 => renderLine i (bar i) ++ renderLines bar (i + 1) n

/-- The map after `m[i]`, `m[i + 1]`, ..., `m[i + n - 1]` have been evaluated in turn. -/
def touched : StdMap → Int → Nat → StdMap
  | m, _, 0 => m
  | m, i, n + 1 => touched (StdMap.subscript m i) (i + 1) n

/-- The draws `[T, T, F, F, T, F, F, T]` as `rand()` results: an even value is a positive draw.
Calls past the eighth return an odd value. -/
def exampleDraws : Nat → Nat :=
  fun n => [0, 0, 1, 1, 0, 1, 1, 0].getD n 1

/-- Number of markers the bar loop writes for a key of frequency `frequency`, resumed with the
accumulator at `j`, or `none` when it is still running after `fuel` tests: the loop of
`barLoop` without the map and the text. -/
def barCount (scale : ℚ) (frequency : Int) : Nat → ℚ → Option Nat
  | 0, _ => none
  | fuel + 1, j =>
    if j < (frequency : ℚ) then
      (barCount scale frequency fuel (fadd j (fmul 1 scale))).map (fun n => n + 1)
    else some 0

/-- The accumulation towards `frequency` makes no rounding: every multiple `c * scale` up to
the first one that reaches `frequency` is a double. -/
def ExactMultiples (scale : ℚ) (frequency : Int) : Prop :=
  ∀ c : Nat, c ≤ barLength frequency scale → roundDouble ((c : ℚ) * scale) = (c : ℚ) * scale

/-- The double `0.3333333333333333`, the nearest to one third. -/
def oneThird : ℚ :=
  6004799503160661 / 18014398509481984

/-- The double `0.1`, the nearest to one tenth. -/
def oneTenth : ℚ :=
  3602879701896397 / 36028797018963968

/-- The double `0.2`, the nearest to one fifth. -/
def oneFifth : ℚ :=
  3602879701896397 / 18014398509481984

open NormalDistributionSimulation

/-! ## The map -/

namespace StdMap

theorem find_put (m : StdMap) (k v k' : Int) :
    find (put m k v) k' = if k' = k then some v else find m k' := by
  induction m with
  | nil =>
    by_cases h : k' = k
    · simp [put, find, h]
    · rcases lt_or_gt_of_ne h with h1 | h1
      · simp [put, find, h, h1]
      · simp [put, find, h, not_lt.mpr h1.le]
  | cons e rest ih =>
    obtain ⟨k0, v0⟩ := e
    simp only [put]
    split_ifs with h1 h2 h3
    all_goals simp only [find]
    all_goals split_ifs <;> first | rfl | omega | simp_all

theorem get_put (m : StdMap) (k v k' : Int) :
    get (put m k v) k' = if k' = k then v else get m k' := by
  unfold get
  rw [find_put]
  split_ifs <;> rfl

theorem sum_values_put (m : StdMap) (k v : Int) :
    (values (put m k v)).sum = (values m).sum - get m k + v := by
  induction m with
  | nil => simp [put, values, get, find]
  | cons e rest ih =>
    obtain ⟨k0, v0⟩ := e
    simp only [put]
    split_ifs with h1 h2
    · simp [values, get, find, h1]
      ring
    · subst h2
      simp [values, get, find]
      ring
    · have ih2 : (List.map Prod.snd (put rest k v)).sum
          = (List.map Prod.snd rest).sum - get rest k + v := ih
      simp only [values, List.map_cons, List.sum_cons, ih2]
      simp only [get, find, h1, h2, if_false]
      ring

theorem get_subscript (m : StdMap) (k k' : Int) : get (subscript m k) k' = get m k' := by
  unfold subscript
  cases h : find m k with
  | some v => rfl
  | none =>
    simp only [get_put]
    split_ifs with h1
    · subst h1
      simp [get, h]
    · rfl

theorem sum_values_subscript (m : StdMap) (k : Int) :
    (values (subscript m k)).sum = (values m).sum := by
  unfold subscript
  cases h : find m k with
  | some v => rfl
  | none =>
    simp only [sum_values_put]
    simp [get, h]

end StdMap

/-! ## Counted loops -/

/-- Invariant rule for `forLt`: a property that holds before the loop and is carried by every
iteration holds after the loop, for a loop that makes all `n` of its iterations. -/
theorem forLt_invariant {σ : Type} (hi : Int) (body : Int → σ → σ) (P : Nat → σ → Prop) :
    ∀ (n : Nat) (x0 : Int) (s : σ), x0 + n ≤ hi → P 0 s →
      (∀ (k : Nat) (t : σ), k < n → P k t → P (k + 1) (body (x0 + k) t)) →
      P n (forLt hi body n x0 s) := by
  intro n
  induction n generalizing P with
  | zero => intro x0 s _ h0 _; exact h0
  | succ n ih =>
    intro x0 s hle h0 hstep
    have hlt : x0 < hi := by push_cast at hle; omega
    simp only [forLt, hlt, if_true]
    apply ih (fun k t => P (k + 1) t) (x0 + 1) (body x0 s)
    · push_cast at hle; omega
    · simpa using hstep 0 s (Nat.succ_pos n) h0
    · intro k t hk hP
      have := hstep (k + 1) t (Nat.succ_lt_succ hk) hP
      have e : x0 + ((k + 1 : Nat) : Int) = x0 + 1 + k := by push_cast; ring
      rwa [e] at this

/-- A loop whose bound is not above its start makes no iteration. -/
theorem forLt_of_le {σ : Type} (hi : Int) (body : Int → σ → σ) (n : Nat) (x0 : Int) (s : σ)
    (h : hi ≤ x0) : forLt hi body n x0 s = s := by
  cases n with
  | zero => rfl
  | succ n => simp [forLt, not_lt.mpr h]

/-- Invariant rule for a loop `for (int x = 0; x < hi; ++x)` run with its exact iteration
count: the loop makes `hi.toNat` iterations, at `x = 0, 1, ..., hi - 1`. -/
theorem forLt_run {σ : Type} (hi : Int) (body : Int → σ → σ) (P : Nat → σ → Prop) (s : σ)
    (h0 : P 0 s)
    (hstep : ∀ (k : Nat) (t : σ), (k : Int) < hi → P k t → P (k + 1) (body k t)) :
    P hi.toNat (forLt hi body (hi - 0).toNat 0 s) := by
  rw [sub_zero]
  rcases le_or_lt 0 hi with h | h
  · apply forLt_invariant hi body P hi.toNat 0 s
    · rw [Int.toNat_of_nonneg h]; omega
    · exact h0
    · intro k t hk hP
      have := hstep k t (by omega) hP
      simpa using this
  · have e : hi.toNat = 0 := Int.toNat_of_nonpos h.le
    rw [e]
    exact h0

/-! ## The constructor -/

namespace NormalDistributionSimulation

theorem get_initBody (trial : Int) (m : StdMap) (k : Int) :
    StdMap.get (initBody trial m) k = if k = trial then 0 else StdMap.get m k := by
  unfold initBody
  rw [StdMap.get_put, StdMap.get_subscript]

theorem sum_values_initBody (trial : Int) (m : StdMap) :
    (StdMap.values (initBody trial m)).sum = (StdMap.values m).sum - StdMap.get m trial := by
  unfold initBody
  rw [StdMap.sum_values_put, StdMap.sum_values_subscript, StdMap.get_subscript]
  ring

/-- The first constructor loop leaves a map in which every key reads `0` and the values sum
to `0`. -/
theorem cleared_spec (nt : Int) :
    (StdMap.values (forLt nt initBody (nt - 0).toNat 0 [])).sum = 0 ∧
      ∀ k, StdMap.get (forLt nt initBody (nt - 0).toNat 0 []) k = 0 := by
  apply forLt_run nt initBody (fun _ m => (StdMap.values m).sum = 0 ∧ ∀ k, StdMap.get m k = 0)
  · exact ⟨rfl, fun _ => rfl⟩
  · intro k t _ hP
    refine ⟨?_, fun j => ?_⟩
    · rw [sum_values_initBody, hP.1, hP.2]; rfl
    · rw [get_initBody, hP.2]; simp

/-- The coin loop of a trial that starts after `pos` calls of `rand()` counts the even values
among the next `opt.toNat` results and leaves `pos + opt.toNat` calls made. -/
theorem flips_spec (rand : Nat → Nat) (opt : Int) (pos : Nat) :
    forLt opt (flipBody rand) (opt - 0).toNat 0 (0, pos)
      = ((((List.range opt.toNat).countP (fun j => rand (pos + j) % 2 == 0) : Nat) : Int),
          pos + opt.toNat) := by
  apply forLt_run opt (flipBody rand)
    (fun n s => s = ((((List.range n).countP (fun j => rand (pos + j) % 2 == 0) : Nat) : Int),
      pos + n))
  · rfl
  · intro k t _ hP
    subst hP
    simp only [flipBody, List.range_succ, List.countP_append, List.countP_singleton]
    by_cases h : rand (pos + k) % 2 = 0
    · simp [h]; rfl
    · simp [h]; rfl

theorem get_trialBody (rand : Nat → Nat) (opt trial : Int) (s : StdMap × Nat) (k : Int) :
    StdMap.get (trialBody rand opt trial s).1 k
      = StdMap.get s.1 k
        + if k = (((List.range opt.toNat).countP (fun j => rand (s.2 + j) % 2 == 0) : Nat) : Int)
          then 1 else 0 := by
  simp only [trialBody, flips_spec, StdMap.get_put, StdMap.get_subscript]
  split_ifs with h
  · rw [h]
  · simp

theorem sum_values_trialBody (rand : Nat → Nat) (opt trial : Int) (s : StdMap × Nat) :
    (StdMap.values (trialBody rand opt trial s).1).sum = (StdMap.values s.1).sum + 1 := by
  simp only [trialBody, StdMap.sum_values_put, StdMap.sum_values_subscript, StdMap.get_subscript]
  ring

theorem calls_trialBody (rand : Nat → Nat) (opt trial : Int) (s : StdMap × Nat) :
    (trialBody rand opt trial s).2 = s.2 + opt.toNat := by
  simp only [trialBody, flips_spec]

theorem trialsWithPositives_succ (rand : Nat → Nat) (opt t : Nat) (k : Int) :
    trialsWithPositives rand opt (t + 1) k
      = trialsWithPositives rand opt t k
        + if k = (positivesInTrial rand opt t : Int) then 1 else 0 := by
  simp only [trialsWithPositives, List.range_succ, List.countP_append, List.countP_singleton]
  by_cases h : k = (positivesInTrial rand opt t : Int)
  · simp [h]
  · have h2 : ¬ ((positivesInTrial rand opt t : Int) = k) := fun e => h e.symm
    simp [h, h2]

/-- State after the trial loop: `rand()` has been called `numTrials * occurrencesPerTrial`
times, the values sum to the number of trials, and every key reads the number of trials that
counted that many positive draws. -/
theorem tallied_spec (rand : Nat → Nat) (opt nt : Int) (m0 : StdMap)
    (hsum : (StdMap.values m0).sum = 0) (hget : ∀ k, StdMap.get m0 k = 0) :
    (forLt nt (trialBody rand opt) (nt - 0).toNat 0 (m0, 0)).2 = nt.toNat * opt.toNat ∧
    (StdMap.values (forLt nt (trialBody rand opt) (nt - 0).toNat 0 (m0, 0)).1).sum
      = (nt.toNat : Int) ∧
    ∀ k, StdMap.get (forLt nt (trialBody rand opt) (nt - 0).toNat 0 (m0, 0)).1 k
      = (trialsWithPositives rand opt.toNat nt.toNat k : Int) := by
  apply forLt_run nt (trialBody rand opt)
    (fun n s => s.2 = n * opt.toNat ∧ (StdMap.values s.1).sum = (n : Int) ∧
      ∀ k, StdMap.get s.1 k = (trialsWithPositives rand opt.toNat n k : Int))
  · refine ⟨by simp, by simpa using hsum, fun k => ?_⟩
    simp [hget, trialsWithPositives]
  · intro n s _ hP
    obtain ⟨h1, h2, h3⟩ := hP
    refine ⟨?_, ?_, fun k => ?_⟩
    · rw [calls_trialBody, h1]; ring
    · rw [sum_values_trialBody, h2]; push_cast; ring
    · rw [get_trialBody, h3, trialsWithPositives_succ, h1]
      unfold positivesInTrial
      push_cast
      rfl

end NormalDistributionSimulation

/-! ## Markers, lines and bar lengths -/

theorem StdMap.find_subscript_self (m : StdMap) (k : Int) :
    StdMap.find (StdMap.subscript m k) k = some (StdMap.get m k) := by
  unfold StdMap.subscript
  cases h : StdMap.find m k with
  | some v => simp [StdMap.get, h]
  | none => simp [StdMap.find_put, StdMap.get, h]

theorem StdMap.subscript_idem (m : StdMap) (k : Int) :
    StdMap.subscript (StdMap.subscript m k) k = StdMap.subscript m k := by
  have h := StdMap.find_subscript_self m k
  generalize StdMap.subscript m k = m1 at h
  unfold StdMap.subscript
  rw [h]

theorem stars_zero : stars 0 = "" := rfl

theorem append_star_stars (out : String) (n : Nat) :
    out ++ "*" ++ stars n = out ++ stars (n + 1) := by
  rw [String.append_assoc]
  rfl

/-- For a positive `scale`, the loop test `j < frequency` holds at `j = c * scale` exactly
when `c` is below `barLength frequency scale`. -/
theorem lt_barLength_iff (frequency : Int) (scale : ℚ) (hs : 0 < scale) (c : Nat) :
    (c : ℚ) * scale < (frequency : ℚ) ↔ c < barLength frequency scale := by
  unfold barLength
  rw [Int.lt_toNat, Int.lt_ceil, lt_div_iff₀ hs]
  simp

theorem StdMap.get_touched (m : StdMap) (i : Int) (n : Nat) (k : Int) :
    StdMap.get (touched m i n) k = StdMap.get m k := by
  induction n generalizing m i with
  | zero => rfl
  | succ n ih => rw [touched, ih, StdMap.get_subscript]

theorem renderLines_append (bar : Int → Nat) (i : Int) (a b : Nat) :
    renderLines bar i (a + b) = renderLines bar i a ++ renderLines bar (i + a) b := by
  induction a generalizing i with
  | zero => simp [renderLines]
  | succ a ih =>
    have e : a + 1 + b = (a + b) + 1 := by omega
    rw [e, renderLines, renderLines, ih, String.append_assoc]
    have e2 : i + 1 + (a : Int) = i + ((a + 1 : Nat) : Int) := by push_cast; ring
    rw [e2]

theorem String.join_cons_eq (a : String) (l : List String) :
    String.join (a :: l) = a ++ String.join l := by
  apply String.ext
  simp [String.data_join]

/-- The lines of `renderLines`, listed one by one. -/
theorem renderLines_eq_join (bar : Int → Nat) (n : Nat) :
    ∀ i : Int, renderLines bar i n
      = String.join ((List.range n).map (fun k : Nat => renderLine (i + k) (bar (i + k)))) := by
  induction n with
  | zero => intro i; rfl
  | succ n ih =>
    intro i
    rw [renderLines, ih (i + 1), List.range_succ_eq_map, List.map_cons, String.join_cons_eq,
      List.map_map]
    simp only [Nat.cast_zero, add_zero]
    congr 2
    apply List.map_congr_left
    intro k _
    simp only [Function.comp, Nat.cast_succ]
    have e : i + 1 + (k : Int) = i + ((k : Int) + 1) := by ring
    rw [e]

namespace NormalDistributionSimulation

end NormalDistributionSimulation

/-! ## Bar lengths -/

/-- A bar of `barLength frequency scale` markers reaches the frequency, and no shorter bar
does. -/
theorem barLength_least (frequency : Int) (scale : ℚ) (hs : 0 < scale) :
    (frequency : ℚ) ≤ (barLength frequency scale : ℚ) * scale ∧
      ∀ n : Nat, (frequency : ℚ) ≤ (n : ℚ) * scale → barLength frequency scale ≤ n := by
  refine ⟨?_, fun n hn => ?_⟩
  · have h := (lt_barLength_iff frequency scale hs (barLength frequency scale)).not
    exact not_lt.mp (h.mpr (lt_irrefl _))
  · have h := (lt_barLength_iff frequency scale hs n).not
    exact not_lt.mp (h.mp (not_lt.mpr hn))

/-- A larger frequency gets a bar that is not shorter. -/
theorem barLength_mono (f g : Int) (scale : ℚ) (hs : 0 < scale) (hfg : f ≤ g) :
    barLength f scale ≤ barLength g scale := by
  by_contra hlt
  rw [not_le] at hlt
  have h1 := (lt_barLength_iff f scale hs (barLength g scale)).mpr hlt
  have h2 := (barLength_least g scale hs).1
  have h3 : (f : ℚ) ≤ (g : ℚ) := by exact_mod_cast hfg
  linarith

/-- A larger scale gives a bar that is not longer. -/
theorem barLength_anti (frequency : Int) (s1 s2 : ℚ) (hs1 : 0 < s1) (hs : s1 ≤ s2) :
    barLength frequency s2 ≤ barLength frequency s1 := by
  by_contra hlt
  rw [not_le] at hlt
  have h1 := (lt_barLength_iff frequency s2 (lt_of_lt_of_le hs1 hs)
    (barLength frequency s1)).mpr hlt
  have h2 := (barLength_least frequency s1 hs1).1
  have h3 : (barLength frequency s1 : ℚ) * s1 ≤ (barLength frequency s1 : ℚ) * s2 :=
    mul_le_mul_of_nonneg_left hs (Nat.cast_nonneg _)
  linarith

/-- Doubling the scale halves the bar, rounding up. -/
theorem barLength_double (frequency : Int) (scale : ℚ) (hs : 0 < scale) :
    barLength frequency (2 * scale) = (barLength frequency scale + 1) / 2 := by
  have key : ∀ c : Nat, c < barLength frequency (2 * scale) ↔ 2 * c < barLength frequency scale := by
    intro c
    rw [← lt_barLength_iff frequency (2 * scale) (by linarith) c,
      ← lt_barLength_iff frequency scale hs (2 * c)]
    have e : ((2 * c : Nat) : ℚ) * scale = (c : ℚ) * (2 * scale) := by push_cast; ring
    rw [e]
  have h1 := key (barLength frequency (2 * scale))
  have h2 := key ((barLength frequency scale + 1) / 2)
  have h3 := key (barLength frequency (2 * scale) - 1)
  omega

/-! ## The entries of the constructed table -/

namespace StdMap

theorem mem_put (m : StdMap) (k v : Int) (e : Int × Int) (h : e ∈ put m k v) :
    e = (k, v) ∨ e ∈ m := by
  induction m with
  | nil => simpa [put] using h
  | cons e0 rest ih =>
    obtain ⟨k0, v0⟩ := e0
    simp only [put] at h
    split_ifs at h with h1 h2
    · simpa using h
    · rcases List.mem_cons.mp h with h | h
      · exact Or.inl h
      · exact Or.inr (List.mem_cons_of_mem _ h)
    · rcases List.mem_cons.mp h with h | h
      · exact Or.inr (h ▸ List.mem_cons_self _ _)
      · rcases ih h with h | h
        · exact Or.inl h
        · exact Or.inr (List.mem_cons_of_mem _ h)

theorem mem_subscript (m : StdMap) (k : Int) (e : Int × Int) (h : e ∈ subscript m k) :
    e = (k, 0) ∨ e ∈ m := by
  unfold subscript at h
  cases hf : find m k with
  | some v => rw [hf] at h; exact Or.inr h
  | none => rw [hf] at h; exact mem_put m k 0 e h

theorem find_mem (m : StdMap) (k v : Int) (h : find m k = some v) : (k, v) ∈ m := by
  induction m with
  | nil => simp [find] at h
  | cons e0 rest ih =>
    obtain ⟨k0, v0⟩ := e0
    simp only [find] at h
    split_ifs at h with h1 h2
    · subst h2
      simp only [Option.some.injEq] at h
      subst h
      exact List.mem_cons_self _ _
    · exact List.mem_cons_of_mem _ (ih h)

/-- The value read at a key is `0` or the value of an entry of the map. -/
theorem get_eq_zero_or_mem (m : StdMap) (k : Int) : get m k = 0 ∨ (k, get m k) ∈ m := by
  unfold get
  cases hf : find m k with
  | none => exact Or.inl rfl
  | some v => exact Or.inr (find_mem m k v hf)

end StdMap

namespace NormalDistributionSimulation

/-- The map after one trial: the entry of the number of positive draws of that trial is
incremented. -/
theorem trialBody_fst (rand : Nat → Nat) (opt trial : Int) (s : StdMap × Nat) :
    (trialBody rand opt trial s).1
      = StdMap.put
          (StdMap.subscript s.1
            (((List.range opt.toNat).countP (fun j => rand (s.2 + j) % 2 == 0) : Nat) : Int))
          (((List.range opt.toNat).countP (fun j => rand (s.2 + j) % 2 == 0) : Nat) : Int)
          (StdMap.get s.1
            (((List.range opt.toNat).countP (fun j => rand (s.2 + j) % 2 == 0) : Nat) : Int)
            + 1) := by
  simp only [trialBody, flips_spec, StdMap.get_subscript]

/-- Every entry of the constructed table holds a count between `0` and the number of trials,
and an entry that holds a non-zero count has its key in `[0, occurrencesPerTrial]`. -/
theorem ctor_entries (opt nt : Int) (rand : Nat → Nat) (hopt : 0 ≤ opt) :
    ∀ e ∈ (ctor opt nt rand).mapNumPositiveOccurrencesToFrequency,
      0 ≤ e.2 ∧ e.2 ≤ (nt.toNat : Int) ∧ (e.2 = 0 ∨ (0 ≤ e.1 ∧ e.1 ≤ opt)) := by
  have hclear : ∀ e ∈ forLt nt initBody (nt - 0).toNat 0 [], e.2 = 0 := by
    apply forLt_run nt initBody (fun _ m => ∀ e ∈ m, e.2 = 0)
    · intro e he; simp at he
    · intro k t _ hP e he
      rcases StdMap.mem_put _ _ _ e he with h | h
      · rw [h]
      · rcases StdMap.mem_subscript _ _ e h with h | h
        · rw [h]
        · exact hP e h
  simp only [ctor]
  apply forLt_run nt (trialBody rand opt)
    (fun n s => ∀ e ∈ s.1, 0 ≤ e.2 ∧ e.2 ≤ (n : Int) ∧ (e.2 = 0 ∨ (0 ≤ e.1 ∧ e.1 ≤ opt)))
  · intro e he
    have := hclear e he
    simp [this]
  · intro n s _ hP e he
    rw [trialBody_fst] at he
    have hc : (((List.range opt.toNat).countP (fun j => rand (s.2 + j) % 2 == 0) : Nat) : Int)
        ≤ opt := by
      have h1 : (List.range opt.toNat).countP (fun j => rand (s.2 + j) % 2 == 0) ≤ opt.toNat := by
        simpa using List.countP_le_length (fun j => rand (s.2 + j) % 2 == 0)
          (l := List.range opt.toNat)
      omega
    rcases StdMap.mem_put _ _ _ e he with h | h
    · rw [h]
      rcases StdMap.get_eq_zero_or_mem s.1
        (((List.range opt.toNat).countP (fun j => rand (s.2 + j) % 2 == 0) : Nat) : Int)
        with h0 | hmem
      · rw [h0]
        refine ⟨by omega, by push_cast; omega, Or.inr ⟨by omega, hc⟩⟩
      · have := hP _ hmem
        refine ⟨by omega, by push_cast; omega, Or.inr ⟨by omega, hc⟩⟩
    · rcases StdMap.mem_subscript _ _ e h with h | h
      · rw [h]
        exact ⟨le_rfl, by push_cast; omega, Or.inl rfl⟩
      · have := hP e h
        exact ⟨this.1, by push_cast; omega, this.2.2⟩

theorem positivesInTrial_le (rand : Nat → Nat) (opt t : Nat) :
    positivesInTrial rand opt t ≤ opt := by
  simpa [positivesInTrial] using
    List.countP_le_length (fun j => rand (t * opt + j) % 2 == 0) (l := List.range opt)

/-- No trial counts a number of positive draws outside `[0, occurrencesPerTrial]`. -/
theorem trialsWithPositives_outside (rand : Nat → Nat) (opt nt : Nat) (k : Int)
    (hk : k < 0 ∨ (opt : Int) < k) : trialsWithPositives rand opt nt k = 0 := by
  induction nt with
  | zero => simp [trialsWithPositives]
  | succ n ih =>
    rw [trialsWithPositives_succ, ih, if_neg]
    intro h
    have := positivesInTrial_le rand opt n
    omega

/-- Every trial is counted at exactly one key of `[0, occurrencesPerTrial]`. -/
theorem sum_trialsWithPositives (rand : Nat → Nat) (opt nt : Nat) :
    ∑ k ∈ Finset.range (opt + 1), trialsWithPositives rand opt nt (k : Int) = nt := by
  induction nt with
  | zero => simp [trialsWithPositives]
  | succ n ih =>
    simp only [trialsWithPositives_succ, Finset.sum_add_distrib, ih, Nat.cast_inj]
    rw [Finset.sum_ite_eq']
    have := positivesInTrial_le rand opt n
    simp [Nat.lt_succ_of_le this]

end NormalDistributionSimulation

/-! ## Negated draws -/

namespace NormalDistributionSimulation

/-- When every draw is negated, a trial counts the draws that were not positive before. -/
theorem positivesInTrial_negated (rand rand' : Nat → Nat)
    (hneg : ∀ n, rand' n % 2 = 0 ↔ ¬ rand n % 2 = 0) (opt t : Nat) :
    positivesInTrial rand' opt t = opt - positivesInTrial rand opt t := by
  have hlen := List.length_eq_countP_add_countP (p := fun j => rand (t * opt + j) % 2 == 0)
    (List.range opt)
  have hc : (List.range opt).countP (fun j => rand' (t * opt + j) % 2 == 0)
      = (List.range opt).countP (fun j => decide ¬ ((rand (t * opt + j) % 2 == 0) = true)) := by
    apply List.countP_congr
    intro j _
    simp [hneg]
  rw [List.length_range] at hlen
  unfold positivesInTrial
  rw [hc]
  omega

/-- When every draw is negated, the trials that counted `k` positive draws are those that
counted `opt - k` before. -/
theorem trialsWithPositives_negated (rand rand' : Nat → Nat)
    (hneg : ∀ n, rand' n % 2 = 0 ↔ ¬ rand n % 2 = 0) (opt nt : Nat) (k : Int) :
    trialsWithPositives rand' opt nt k = trialsWithPositives rand opt nt ((opt : Int) - k) := by
  unfold trialsWithPositives
  apply List.countP_congr
  intro t _
  have h1 := positivesInTrial_negated rand rand' hneg opt t
  have h2 := positivesInTrial_le rand opt t
  simp only [beq_iff_eq]
  omega

/-- A simulator built with at least one trial has a first key in `[0, occurrencesPerTrial]`
whose frequency is positive. -/
theorem exists_first_positive (opt nt : Int) (rand : Nat → Nat) (hopt : 0 ≤ opt)
    (hnt : 1 ≤ nt) :
    ∃ k : Int, 0 ≤ k ∧ k ≤ opt ∧
      0 < StdMap.get (ctor opt nt rand).mapNumPositiveOccurrencesToFrequency k ∧
      ∀ j, 0 ≤ j → j < k →
        StdMap.get (ctor opt nt rand).mapNumPositiveOccurrencesToFrequency j = 0 := by
  have hget : ∀ k, StdMap.get (ctor opt nt rand).mapNumPositiveOccurrencesToFrequency k
      = (trialsWithPositives rand opt.toNat nt.toNat k : Int) := fun k => by
    have h := (tallied_spec rand opt nt _ (cleared_spec nt).1 (cleared_spec nt).2).2.2 k
    simpa only [ctor] using h
  have hex : ∃ n : Nat, n ≤ opt.toNat ∧ 0 < trialsWithPositives rand opt.toNat nt.toNat (n : Int) := by
    by_contra hno
    push_neg at hno
    have hsum := sum_trialsWithPositives rand opt.toNat nt.toNat
    rw [Finset.sum_eq_zero (fun n hn => by
      have := hno n (Nat.lt_succ_iff.mp (Finset.mem_range.mp hn)); omega)] at hsum
    omega
  classical
  refine ⟨(Nat.find hex : Nat), by omega, ?_, ?_, ?_⟩
  · have := (Nat.find_spec hex).1
    omega
  · rw [hget]
    exact_mod_cast (Nat.find_spec hex).2
  · intro j hj0 hjk
    rw [hget]
    have hmin := Nat.find_min hex (m := j.toNat) (by omega)
    have hle : j.toNat ≤ opt.toNat := by
      have := (Nat.find_spec hex).1
      omega
    have hz : ¬ 0 < trialsWithPositives rand opt.toNat nt.toNat ((j.toNat : Nat) : Int) :=
      fun h => hmin ⟨hle, h⟩
    rw [Int.toNat_of_nonneg hj0] at hz
    omega

end NormalDistributionSimulation

/-! ## Rounding to double -/

theorem roundHalfEven_mono {s t : ℚ} (h : s ≤ t) : roundHalfEven s ≤ roundHalfEven t := by
  have hf : ⌊s⌋ ≤ ⌊t⌋ := Int.floor_mono h
  have hs1 : (⌊s⌋ : ℚ) ≤ s := Int.floor_le s
  have ht1 : (⌊t⌋ : ℚ) ≤ t := Int.floor_le t
  rcases lt_or_eq_of_le hf with hlt | heq
  · have h1 : roundHalfEven s ≤ ⌊s⌋ + 1 := by
      unfold roundHalfEven; split_ifs <;> omega
    have h2 : ⌊t⌋ ≤ roundHalfEven t := by
      unfold roundHalfEven; split_ifs <;> omega
    omega
  · unfold roundHalfEven
    rw [heq]
    have hst : s - ⌊t⌋ ≤ t - ⌊t⌋ := by linarith
    split_ifs <;> first | omega | (exfalso; linarith)

theorem roundHalfEven_intCast (n : Int) : roundHalfEven (n : ℚ) = n := by
  unfold roundHalfEven
  simp

theorem roundHalfEven_natCast (n : Nat) : roundHalfEven (n : ℚ) = n := by
  have := roundHalfEven_intCast (n : Int)
  simpa using this

theorem roundHalfEven_nonneg {t : ℚ} (h : 0 ≤ t) : 0 ≤ roundHalfEven t := by
  have := roundHalfEven_mono h
  rwa [show roundHalfEven 0 = 0 from roundHalfEven_intCast 0] at this

theorem two_zpow_pos (k : Int) : (0 : ℚ) < 2 ^ k := zpow_pos (by norm_num) k

theorem roundMagnitude_zero : roundMagnitude 0 = 0 := by
  unfold roundMagnitude
  rw [zero_div, show roundHalfEven 0 = 0 from roundHalfEven_intCast 0]
  simp
  positivity

theorem roundMagnitude_nonneg {a : ℚ} (h : 0 ≤ a) : 0 ≤ roundMagnitude a := by
  unfold roundMagnitude
  apply le_min
  · apply mul_nonneg
    · exact_mod_cast roundHalfEven_nonneg (div_nonneg h (two_zpow_pos _).le)
    · exact (two_zpow_pos _).le
  · exact (two_zpow_pos _).le

theorem roundDouble_zero : roundDouble 0 = 0 := by
  unfold roundDouble
  simp [roundMagnitude_zero]

theorem roundDouble_nonneg {x : ℚ} (h : 0 ≤ x) : 0 ≤ roundDouble x := by
  unfold roundDouble
  rw [if_neg (not_lt.mpr h)]
  exact roundMagnitude_nonneg h

theorem roundDouble_nonpos {x : ℚ} (h : x ≤ 0) : roundDouble x ≤ 0 := by
  unfold roundDouble
  split_ifs with hx
  · have := roundMagnitude_nonneg (show (0 : ℚ) ≤ -x by linarith)
    linarith
  · have : x = 0 := le_antisymm h (not_lt.mp hx)
    rw [this, roundMagnitude_zero]

theorem doubleExponent_mono {a b : ℚ} (ha : 0 < a) (h : a ≤ b) :
    doubleExponent a ≤ doubleExponent b := by
  unfold doubleExponent
  exact max_le_max (Int.log_mono_right ha h) le_rfl

theorem lt_two_zpow_doubleExponent (a : ℚ) : a < 2 ^ (doubleExponent a + 1) := by
  have h1 : a < ((2 : Nat) : ℚ) ^ (Int.log 2 a + 1) := Int.lt_zpow_succ_log_self (by norm_num) a
  have h2 : ((2 : Nat) : ℚ) ^ (Int.log 2 a + 1) ≤ 2 ^ (doubleExponent a + 1) := by
    rw [Nat.cast_ofNat]
    apply zpow_le_zpow_right₀ (by norm_num)
    unfold doubleExponent
    have := le_max_left (Int.log 2 a) (-1022)
    omega
  exact lt_of_lt_of_le h1 h2

theorem two_zpow_doubleExponent_le {a : ℚ} (ha : 0 < a) (h : -1022 < doubleExponent a) :
    2 ^ doubleExponent a ≤ a := by
  have e : doubleExponent a = Int.log 2 a := by
    unfold doubleExponent at h ⊢
    rcases max_cases (Int.log 2 a) (-1022) with ⟨h1, _⟩ | ⟨h1, _⟩
    · exact h1
    · rw [h1] at h; omega
  rw [e]
  have := Int.zpow_log_le_self (b := 2) (r := a) (by norm_num) ha
  rwa [Nat.cast_ofNat] at this

theorem roundMagnitude_eq (a : ℚ) :
    roundMagnitude a
      = min ((roundHalfEven (a / 2 ^ (doubleExponent a - 52)) : ℚ)
          * 2 ^ (doubleExponent a - 52)) (2 ^ (1024 : Int)) := rfl

theorem grid_le_top (a : ℚ) :
    (roundHalfEven (a / 2 ^ (doubleExponent a - 52)) : ℚ) * 2 ^ (doubleExponent a - 52)
      ≤ 2 ^ (doubleExponent a + 1) := by
  have hu := two_zpow_pos (doubleExponent a - 52)
  have h1 : a / 2 ^ (doubleExponent a - 52) ≤ ((2 ^ 53 : Int) : ℚ) := by
    rw [div_le_iff₀ hu]
    have e : (((2 ^ 53 : Int) : ℚ)) * 2 ^ (doubleExponent a - 52) = 2 ^ (doubleExponent a + 1) := by
      have : doubleExponent a + 1 = 53 + (doubleExponent a - 52) := by ring
      rw [this, zpow_add₀ (by norm_num : (2 : ℚ) ≠ 0)]
      norm_num
    rw [e]
    exact (lt_two_zpow_doubleExponent a).le
  have h2 := roundHalfEven_mono h1
  rw [roundHalfEven_intCast] at h2
  have h3 : (roundHalfEven (a / 2 ^ (doubleExponent a - 52)) : ℚ) ≤ ((2 ^ 53 : Int) : ℚ) := by
    exact_mod_cast h2
  calc (roundHalfEven (a / 2 ^ (doubleExponent a - 52)) : ℚ) * 2 ^ (doubleExponent a - 52)
      ≤ ((2 ^ 53 : Int) : ℚ) * 2 ^ (doubleExponent a - 52) :=
        mul_le_mul_of_nonneg_right h3 hu.le
    _ = 2 ^ (doubleExponent a + 1) := by
      have : doubleExponent a + 1 = 53 + (doubleExponent a - 52) := by ring
      rw [this, zpow_add₀ (by norm_num : (2 : ℚ) ≠ 0)]
      norm_num

theorem bottom_le_grid {a : ℚ} (ha : 0 < a) (h : -1022 < doubleExponent a) :
    2 ^ doubleExponent a
      ≤ (roundHalfEven (a / 2 ^ (doubleExponent a - 52)) : ℚ) * 2 ^ (doubleExponent a - 52) := by
  have hu := two_zpow_pos (doubleExponent a - 52)
  have e : (((2 ^ 52 : Int) : ℚ)) * 2 ^ (doubleExponent a - 52) = 2 ^ (doubleExponent a) := by
    have : doubleExponent a = 52 + (doubleExponent a - 52) := by ring
    conv_rhs => rw [this, zpow_add₀ (by norm_num : (2 : ℚ) ≠ 0)]
    norm_num
  have h1 : ((2 ^ 52 : Int) : ℚ) ≤ a / 2 ^ (doubleExponent a - 52) := by
    rw [le_div_iff₀ hu, e]
    exact two_zpow_doubleExponent_le ha h
  have h2 := roundHalfEven_mono h1
  rw [roundHalfEven_intCast] at h2
  have h3 : ((2 ^ 52 : Int) : ℚ) ≤ (roundHalfEven (a / 2 ^ (doubleExponent a - 52)) : ℚ) := by
    exact_mod_cast h2
  calc (2 : ℚ) ^ doubleExponent a = ((2 ^ 52 : Int) : ℚ) * 2 ^ (doubleExponent a - 52) := e.symm
    _ ≤ _ := mul_le_mul_of_nonneg_right h3 hu.le

theorem roundMagnitude_mono {a b : ℚ} (ha : 0 ≤ a) (h : a ≤ b) :
    roundMagnitude a ≤ roundMagnitude b := by
  rcases eq_or_lt_of_le ha with h0 | hpos
  · rw [← h0, roundMagnitude_zero]
    exact roundMagnitude_nonneg (le_trans ha h)
  · rw [roundMagnitude_eq, roundMagnitude_eq]
    apply min_le_min _ le_rfl
    rcases eq_or_lt_of_le (doubleExponent_mono hpos h) with he | hlt
    · rw [← he]
      apply mul_le_mul_of_nonneg_right _ (two_zpow_pos _).le
      have := roundHalfEven_mono
        (div_le_div_of_nonneg_right h (two_zpow_pos (doubleExponent a - 52)).le)
      exact_mod_cast this
    · have hb : -1022 < doubleExponent b := by
        have : -1022 ≤ doubleExponent a := le_max_right _ _
        omega
      calc _ ≤ (2 : ℚ) ^ (doubleExponent a + 1) := grid_le_top a
        _ ≤ 2 ^ doubleExponent b := zpow_le_zpow_right₀ (by norm_num) (by omega)
        _ ≤ _ := bottom_le_grid (lt_of_lt_of_le hpos h) hb

theorem roundDouble_mono {x y : ℚ} (h : x ≤ y) : roundDouble x ≤ roundDouble y := by
  rcases lt_or_le x 0 with hx | hx
  · rcases lt_or_le y 0 with hy | hy
    · unfold roundDouble
      rw [if_pos hx, if_pos hy]
      have := roundMagnitude_mono (show (0 : ℚ) ≤ -y by linarith) (show -y ≤ -x by linarith)
      linarith
    · exact le_trans (roundDouble_nonpos hx.le) (roundDouble_nonneg hy)
  · unfold roundDouble
    rw [if_neg (not_lt.mpr hx), if_neg (not_lt.mpr (le_trans hx h))]
    exact roundMagnitude_mono hx h

theorem doubleExponent_eq {a : ℚ} (e : Int) (h1 : 2 ^ e ≤ a) (h2 : a < 2 ^ (e + 1))
    (he : -1022 ≤ e) : doubleExponent a = e := by
  have ha : 0 < a := lt_of_lt_of_le (two_zpow_pos e) h1
  have hl1 : e ≤ Int.log 2 a := by
    rw [← Int.zpow_le_iff_le_log (by norm_num) ha, Nat.cast_ofNat]
    exact h1
  have hl2 : Int.log 2 a < e + 1 := by
    rw [← Int.lt_zpow_iff_log_lt (by norm_num) ha, Nat.cast_ofNat]
    exact h2
  unfold doubleExponent
  rw [max_eq_left (by omega)]
  omega

/-- A magnitude `m * 2 ^ k` with `m < 2 ^ 53` and `k ≥ -1074` that is not above `2 ^ 1024` is
a double: rounding leaves it as it is. -/
theorem roundMagnitude_exact (m : Nat) (k : Int) (hm : m < 2 ^ 53) (hk : -1074 ≤ k)
    (hlt : (m : ℚ) * 2 ^ k ≤ 2 ^ (1024 : Int)) :
    roundMagnitude ((m : ℚ) * 2 ^ k) = (m : ℚ) * 2 ^ k := by
  rcases Nat.eq_zero_or_pos m with h0 | hpos
  · rw [h0]; simp [roundMagnitude_zero]
  · have ha : (0 : ℚ) < (m : ℚ) * 2 ^ k := mul_pos (by exact_mod_cast hpos) (two_zpow_pos k)
    have hlog : Int.log 2 ((m : ℚ) * 2 ^ k) < k + 53 := by
      rw [← Int.lt_zpow_iff_log_lt (by norm_num) ha, Nat.cast_ofNat]
      have e : (2 : ℚ) ^ (k + 53) = 2 ^ (53 : Nat) * 2 ^ k := by
        rw [zpow_add₀ (by norm_num : (2 : ℚ) ≠ 0), mul_comm]
        norm_cast
      rw [e]
      apply mul_lt_mul_of_pos_right _ (two_zpow_pos k)
      exact_mod_cast hm
    have he : doubleExponent ((m : ℚ) * 2 ^ k) - 52 ≤ k := by
      unfold doubleExponent
      rcases max_cases (Int.log 2 ((m : ℚ) * 2 ^ k)) (-1022) with ⟨h1, _⟩ | ⟨h1, _⟩ <;>
        rw [h1] <;> omega
    rw [roundMagnitude_eq]
    generalize doubleExponent ((m : ℚ) * 2 ^ k) - 52 = u at he
    obtain ⟨d, hd⟩ : ∃ d : Nat, k = u + d := ⟨(k - u).toNat, by omega⟩
    have hu := two_zpow_pos u
    have hq : (m : ℚ) * 2 ^ k = ((m * 2 ^ d : Nat) : ℚ) * 2 ^ u := by
      rw [hd, zpow_add₀ (by norm_num : (2 : ℚ) ≠ 0)]
      push_cast
      rw [zpow_natCast]
      ring
    have hq2 : (m : ℚ) * 2 ^ k / 2 ^ u = ((m * 2 ^ d : Nat) : ℚ) := by
      rw [div_eq_iff hu.ne', hq]
    rw [hq2, roundHalfEven_natCast]
    have hback : (((m * 2 ^ d : Nat) : Int) : ℚ) * 2 ^ u = (m : ℚ) * 2 ^ k := by
      rw [hq]
      norm_cast
    rw [hback]
    exact min_eq_left hlt

theorem roundDouble_natCast (m : Nat) (hm : m < 2 ^ 53) : roundDouble (m : ℚ) = m := by
  have hex := roundMagnitude_exact m 0 hm (by norm_num) (by
    have : (m : ℚ) ≤ 2 ^ (53 : Nat) := by exact_mod_cast hm.le
    simp only [zpow_zero, mul_one]
    refine le_trans this ?_
    norm_num)
  simp only [zpow_zero, mul_one] at hex
  unfold roundDouble
  rw [if_neg (not_lt.mpr (Nat.cast_nonneg m)), hex]

theorem roundDouble_neg (x : ℚ) : roundDouble (-x) = -roundDouble x := by
  unfold roundDouble
  rcases lt_trichotomy x 0 with h | h | h
  · rw [if_neg (by linarith), if_pos h]; simp
  · rw [h]; simp [roundMagnitude_zero]
  · rw [if_pos (by linarith), if_neg (by linarith)]; simp

/-- An integer of magnitude below `2 ^ 53` is a double. -/
theorem roundDouble_intCast (n : Int) (hn : |n| < 2 ^ 53) : roundDouble (n : ℚ) = n := by
  obtain ⟨m, rfl | rfl⟩ := Int.eq_nat_or_neg n
  · have hm : m < 2 ^ 53 := by
      rw [abs_of_nonneg (Int.natCast_nonneg m)] at hn
      exact_mod_cast hn
    simpa using roundDouble_natCast m hm
  · have hm : m < 2 ^ 53 := by
      rw [abs_neg, abs_of_nonneg (Int.natCast_nonneg m)] at hn
      exact_mod_cast hn
    have := roundDouble_natCast m hm
    push_cast
    rw [roundDouble_neg, this]

theorem roundMagnitude_eval (a : ℚ) (e n : Int) (h1 : 2 ^ e ≤ a) (h2 : a < 2 ^ (e + 1))
    (he : -1022 ≤ e) (hr : roundHalfEven (a / 2 ^ (e - 52)) = n)
    (hle : (n : ℚ) * 2 ^ (e - 52) ≤ 2 ^ (1024 : Int)) :
    roundMagnitude a = (n : ℚ) * 2 ^ (e - 52) := by
  rw [roundMagnitude_eq, doubleExponent_eq e h1 h2 he, hr]
  exact min_eq_left hle

theorem roundHalfEven_tie_even (f : Int) (t : ℚ) (ht : t = (f : ℚ) + 1 / 2) (hf : f % 2 = 0) :
    roundHalfEven t = f := by
  have hfl : ⌊t⌋ = f := by
    rw [Int.floor_eq_iff, ht]
    constructor <;> linarith
  unfold roundHalfEven
  rw [hfl, if_neg (by rw [ht]; norm_num), if_neg (by rw [ht]; norm_num), if_pos hf]

theorem roundHalfEven_tie_odd (f : Int) (t : ℚ) (ht : t = (f : ℚ) + 1 / 2) (hf : f % 2 = 1) :
    roundHalfEven t = f + 1 := by
  have hfl : ⌊t⌋ = f := by
    rw [Int.floor_eq_iff, ht]
    constructor <;> linarith
  unfold roundHalfEven
  rw [hfl, if_neg (by rw [ht]; norm_num), if_neg (by rw [ht]; norm_num), if_neg (by omega)]

theorem roundDouble_of_pos {x : ℚ} (h : 0 ≤ x) : roundDouble x = roundMagnitude x := by
  unfold roundDouble
  rw [if_neg (not_lt.mpr h)]

theorem wrapInt_of_range {x : Int} (h1 : -2147483648 ≤ x) (h2 : x ≤ 2147483647) :
    wrapInt x = x := by
  unfold wrapInt
  omega

theorem wrapInt_range (x : Int) : -2147483648 ≤ wrapInt x ∧ wrapInt x ≤ 2147483647 := by
  unfold wrapInt
  omega

/-! ## The bar loop -/

/-- The bar loop writes `barCount` markers after the text so far and leaves the map with
`map[i]` evaluated; it is still running exactly when `barCount` is. -/
theorem barLoop_eq_barCount (i : Int) (scale : ℚ) :
    ∀ (fuel : Nat) (j : ℚ) (m : StdMap) (out : String),
      NormalDistributionSimulation.barLoop i scale fuel j m out
        = match barCount scale (StdMap.get m i) fuel j with
          | some n => .ok (StdMap.subscript m i, out ++ stars n)
          | none => .error .outOfFuel := by
  intro fuel
  induction fuel with
  | zero => intro j m out; rfl
  | succ fuel ih =>
    intro j m out
    simp only [NormalDistributionSimulation.barLoop, barCount, StdMap.get_subscript]
    by_cases h : j < (StdMap.get m i : ℚ)
    · rw [if_pos h, if_pos h, ih, StdMap.get_subscript, StdMap.subscript_idem]
      cases barCount scale (StdMap.get m i) fuel (fadd j (fmul 1 scale)) with
      | none => rfl
      | some n => simp only [Option.map_some', append_star_stars]
    · rw [if_neg h, if_neg h]
      simp only [stars_zero, String.append_empty]

theorem barCount_nonpos (scale : ℚ) (frequency : Int) (fuel : Nat) (hf : frequency ≤ 0) :
    barCount scale frequency (fuel + 1) 0 = some 0 := by
  have h : ¬ ((0 : ℚ) < (frequency : ℚ)) := by
    rw [not_lt]
    exact_mod_cast hf
  simp only [barCount, if_neg h]

/-- A loop that returns has made fewer tests than its fuel; more fuel changes nothing. -/
theorem barCount_fuel_mono (scale : ℚ) (frequency : Int) :
    ∀ (fuel fuel' : Nat) (j : ℚ) (n : Nat), barCount scale frequency fuel j = some n →
      fuel ≤ fuel' → barCount scale frequency fuel' j = some n := by
  intro fuel
  induction fuel with
  | zero => intro fuel' j n h; simp [barCount] at h
  | succ fuel ih =>
    intro fuel' j n h hle
    obtain ⟨f', rfl⟩ : ∃ f', fuel' = f' + 1 := ⟨fuel' - 1, by omega⟩
    simp only [barCount] at h ⊢
    split_ifs at h ⊢ with hlt
    · cases hc : barCount scale frequency fuel (fadd j (fmul 1 scale)) with
      | none => rw [hc] at h; simp at h
      | some k =>
        rw [hc] at h
        rw [ih f' _ k hc (by omega)]
        exact h
    · exact h

/-- With a scale that is not positive, the accumulator never leaves the non-positive numbers:
the bar loop of a positive frequency exhausts any fuel. -/
theorem barCount_diverges (scale : ℚ) (frequency : Int) (hs : scale ≤ 0) (hf : 0 < frequency) :
    ∀ (fuel : Nat) (j : ℚ), j ≤ 0 → barCount scale frequency fuel j = none := by
  intro fuel
  induction fuel with
  | zero => intro j _; rfl
  | succ fuel ih =>
    intro j hj
    have hlt : j < (frequency : ℚ) := lt_of_le_of_lt hj (by exact_mod_cast hf)
    have hinc : fmul 1 scale ≤ 0 := roundDouble_nonpos (by linarith)
    have hnext : fadd j (fmul 1 scale) ≤ 0 := roundDouble_nonpos (by linarith)
    simp only [barCount, if_pos hlt, ih _ hnext, Option.map_none']

/-- A key with a positive frequency gets at least one marker. -/
theorem barCount_pos (scale : ℚ) (frequency : Int) (hf : 0 < frequency) (fuel : Nat) (n : Nat)
    (h : barCount scale frequency fuel 0 = some n) : 1 ≤ n := by
  cases fuel with
  | zero => simp [barCount] at h
  | succ fuel =>
    have hlt : (0 : ℚ) < (frequency : ℚ) := by exact_mod_cast hf
    simp only [barCount, if_pos hlt] at h
    cases hc : barCount scale frequency fuel (fadd 0 (fmul 1 scale)) with
    | none => rw [hc] at h; simp at h
    | some k =>
      rw [hc] at h
      simp only [Option.map_some', Option.some.injEq] at h
      omega

/-- A smaller frequency gets a bar that is not longer, within the same fuel. -/
theorem barCount_mono_frequency (scale : ℚ) (f g : Int) (hfg : f ≤ g) :
    ∀ (fuel : Nat) (j : ℚ) (n : Nat), barCount scale g fuel j = some n →
      ∃ n', n' ≤ n ∧ barCount scale f fuel j = some n' := by
  intro fuel
  induction fuel with
  | zero => intro j n h; simp [barCount] at h
  | succ fuel ih =>
    intro j n h
    have hq : (f : ℚ) ≤ (g : ℚ) := by exact_mod_cast hfg
    simp only [barCount] at h ⊢
    by_cases hjf : j < (f : ℚ)
    · rw [if_pos (lt_of_lt_of_le hjf hq)] at h
      rw [if_pos hjf]
      cases hc : barCount scale g fuel (fadd j (fmul 1 scale)) with
      | none => rw [hc] at h; simp at h
      | some k =>
        rw [hc] at h
        simp only [Option.map_some', Option.some.injEq] at h
        obtain ⟨k', hk', hk⟩ := ih _ k hc
        rw [hk]
        exact ⟨k' + 1, by omega, rfl⟩
    · rw [if_neg hjf]
      exact ⟨0, Nat.zero_le _, rfl⟩

/-- A larger scale, from an accumulator that is not behind, gives a bar that is not longer,
within the same fuel. -/
theorem barCount_mono_scale (s1 s2 : ℚ) (frequency : Int) (hs : s1 ≤ s2) :
    ∀ (fuel : Nat) (j1 j2 : ℚ) (n : Nat), j1 ≤ j2 → barCount s1 frequency fuel j1 = some n →
      ∃ n', n' ≤ n ∧ barCount s2 frequency fuel j2 = some n' := by
  intro fuel
  induction fuel with
  | zero => intro j1 j2 n _ h; simp [barCount] at h
  | succ fuel ih =>
    intro j1 j2 n hj h
    simp only [barCount] at h ⊢
    by_cases h2 : j2 < (frequency : ℚ)
    · rw [if_pos (lt_of_le_of_lt hj h2)] at h
      rw [if_pos h2]
      cases hc : barCount s1 frequency fuel (fadd j1 (fmul 1 s1)) with
      | none => rw [hc] at h; simp at h
      | some k =>
        rw [hc] at h
        simp only [Option.map_some', Option.some.injEq] at h
        have hinc : fmul 1 s1 ≤ fmul 1 s2 := roundDouble_mono (by linarith)
        have hnext : fadd j1 (fmul 1 s1) ≤ fadd j2 (fmul 1 s2) :=
          roundDouble_mono (by linarith)
        obtain ⟨k', hk', hk⟩ := ih _ _ k hnext hc
        rw [hk]
        exact ⟨k' + 1, by omega, rfl⟩
    · rw [if_neg h2]
      exact ⟨0, Nat.zero_le _, rfl⟩

/-- When the accumulation makes no rounding, the bar loop resumed after `c` markers writes the
remaining `barLength - c` markers and stops. -/
theorem barCount_exact (scale : ℚ) (frequency : Int) (hs : 0 < scale)
    (hex : ExactMultiples scale frequency) :
    ∀ (fuel c : Nat), c ≤ barLength frequency scale → barLength frequency scale - c < fuel →
      barCount scale frequency fuel ((c : ℚ) * scale)
        = some (barLength frequency scale - c) := by
  intro fuel
  induction fuel with
  | zero => intro c _ h; omega
  | succ fuel ih =>
    intro c hc hfuel
    simp only [barCount]
    by_cases hlt : c < barLength frequency scale
    · rw [if_pos ((lt_barLength_iff frequency scale hs c).mpr hlt)]
      have h1 : fmul 1 scale = scale := by
        have := hex 1 (by omega)
        simpa [fmul] using this
      have h2 : fadd ((c : ℚ) * scale) (fmul 1 scale) = ((c + 1 : Nat) : ℚ) * scale := by
        rw [h1]
        have := hex (c + 1) (by omega)
        unfold fadd
        rw [← this]
        congr 1
        push_cast
        ring
      rw [h2, ih (c + 1) (by omega) (by omega)]
      simp only [Option.map_some', Option.some.injEq]
      omega
    · rw [if_neg (fun h => hlt ((lt_barLength_iff frequency scale hs c).mp h))]
      congr 1
      omega

/-- A positive whole scale below `2 ^ 52` accumulates without rounding towards any frequency
below `2 ^ 52`. -/
theorem exactMultiples_natCast (s : Nat) (frequency : Int) (hs : 0 < s) (hs2 : s < 2 ^ 52)
    (hf : frequency < 2 ^ 52) : ExactMultiples (s : ℚ) frequency := by
  intro c hc
  have hsq : (0 : ℚ) < (s : ℚ) := by exact_mod_cast hs
  have hbound : c * s < 2 ^ 53 := by
    rcases Nat.eq_zero_or_pos c with h0 | hpos
    · rw [h0]; norm_num
    · have hlt : c - 1 < barLength frequency (s : ℚ) := by omega
      have h1 := (lt_barLength_iff frequency (s : ℚ) hsq (c - 1)).mpr hlt
      have h2 : (((c - 1) * s : Nat) : Int) < frequency := by
        have : ((((c - 1) * s : Nat) : Int) : ℚ) < (frequency : ℚ) := by
          push_cast
          exact h1
        exact_mod_cast this
      have h3 : (c - 1) * s + s = c * s := by
        have : c = (c - 1) + 1 := by omega
        conv_rhs => rw [this, Nat.add_mul, Nat.one_mul]
      have h4 : ((c - 1) * s : Nat) < 2 ^ 52 := by
        have : (((c - 1) * s : Nat) : Int) < 2 ^ 52 := lt_trans h2 hf
        exact_mod_cast this
      omega
  have := roundDouble_natCast (c * s) hbound
  push_cast at this
  exact this

/-! ## The method `print` -/

namespace NormalDistributionSimulation

/-- The outer loop of `print`, for `occurrencesPerTrial` below the largest `int` and when the
bar loop of every key `k` it visits returns after `bar k` markers: it leaves by its own test
after exactly `occurrencesPerTrial + 1 - i` iterations (none when that is negative), whatever
larger number bounds its iterations, having written the lines of the keys it visited. -/
theorem printLoop_run (fuel : Nat) (opt : Int) (scale : ℚ) (bar : Int → Nat) (m0 : StdMap)
    (hopt : opt < 2147483647)
    (hbar : ∀ k, 0 ≤ k → k ≤ opt → barCount scale (StdMap.get m0 k) fuel 0 = some (bar k)) :
    ∀ (n : Nat) (i : Int) (m : StdMap) (out : String), 0 ≤ i → (opt + 1 - i).toNat ≤ n →
      (∀ j, StdMap.get m j = StdMap.get m0 j) →
      printLoop fuel opt scale n i m out
        = .ok (touched m i (opt + 1 - i).toNat, out ++ renderLines bar i (opt + 1 - i).toNat) := by
  intro n
  induction n with
  | zero =>
    intro i m out _ hn _
    have e : (opt + 1 - i).toNat = 0 := by omega
    have hi : ¬ i ≤ opt := by omega
    simp [e, printLoop, if_neg hi, touched, renderLines]
  | succ n ih =>
    intro i m out hi0 hn hm
    by_cases hi : i ≤ opt
    · have e : (opt + 1 - i).toNat = (opt + 1 - (i + 1)).toNat + 1 := by omega
      simp only [printLoop, if_pos hi]
      rw [barLoop_eq_barCount, hm i, hbar i hi0 hi]
      simp only
      rw [wrapInt_of_range (by omega) (by omega),
        ih (i + 1) (StdMap.subscript m i) _ (by omega) (by omega)
          (fun j => by rw [StdMap.get_subscript, hm]), e]
      simp only [touched, renderLines, renderLine, String.append_assoc]
    · have e : (opt + 1 - i).toNat = 0 := by omega
      simp [e, printLoop, if_neg hi, touched, renderLines]

/-- An outer loop that returns, for `occurrencesPerTrial` below the largest `int`, has seen
the bar loop of every key from `i` to `occurrencesPerTrial` return. -/
theorem printLoop_ok_inv (fuel : Nat) (opt : Int) (scale : ℚ) (hopt : opt < 2147483647) :
    ∀ (n : Nat) (i : Int) (m : StdMap) (out : String) (r : StdMap × String), 0 ≤ i →
      printLoop fuel opt scale n i m out = .ok r →
      ∀ k, i ≤ k → k ≤ opt → ∃ c, barCount scale (StdMap.get m k) fuel 0 = some c := by
  intro n
  induction n with
  | zero =>
    intro i m out r _ h k hk1 hk2
    have hi : i ≤ opt := le_trans hk1 hk2
    simp [printLoop, if_pos hi] at h
  | succ n ih =>
    intro i m out r hi0 h k hk1 hk2
    have hi : i ≤ opt := le_trans hk1 hk2
    simp only [printLoop, if_pos hi] at h
    rw [barLoop_eq_barCount] at h
    cases hc : barCount scale (StdMap.get m i) fuel 0 with
    | none => rw [hc] at h; simp at h
    | some c =>
      rw [hc] at h
      simp only at h
      rw [wrapInt_of_range (by omega) (by omega)] at h
      rcases eq_or_lt_of_le hk1 with e | e
      · exact ⟨c, by rw [← e]; exact hc⟩
      · have := ih (i + 1) _ _ r (by omega) h k (by omega) hk2
        rwa [StdMap.get_subscript] at this

/-- For `occurrencesPerTrial` at the largest `int` (or above) the test of the outer loop never
fails: the loop does not return. -/
theorem printLoop_never (fuel : Nat) (opt : Int) (scale : ℚ) (hopt : 2147483647 ≤ opt) :
    ∀ (n : Nat) (i : Int) (m : StdMap) (out : String) (r : StdMap × String),
      i ≤ 2147483647 → printLoop fuel opt scale n i m out ≠ .ok r := by
  intro n
  induction n with
  | zero =>
    intro i m out r hi h
    have hle : i ≤ opt := le_trans hi hopt
    simp [printLoop, if_pos hle] at h
  | succ n ih =>
    intro i m out r hi h
    have hle : i ≤ opt := le_trans hi hopt
    simp only [printLoop, if_pos hle] at h
    cases hb : barLoop i scale fuel 0 m (out ++ toString i ++ "\t") with
    | error e => rw [hb] at h; simp at h
    | ok r1 =>
      rw [hb] at h
      exact ih _ _ _ r (wrapInt_range (i + 1)).2 h

/-- The only way the outer loop fails is by running out of fuel. -/
theorem printLoop_error (fuel : Nat) (opt : Int) (scale : ℚ) :
    ∀ (n : Nat) (i : Int) (m : StdMap) (out : String) (e : Failure),
      printLoop fuel opt scale n i m out = .error e → e = .outOfFuel := by
  intro n
  induction n with
  | zero =>
    intro i m out e h
    simp only [printLoop] at h
    split_ifs at h
    simp only [Except.error.injEq] at h
    exact h.symm
  | succ n ih =>
    intro i m out e h
    simp only [printLoop] at h
    split_ifs at h
    rw [barLoop_eq_barCount] at h
    cases hc : barCount scale (StdMap.get m i) fuel 0 with
    | none =>
      rw [hc] at h
      simp only [Except.error.injEq] at h
      exact h.symm
    | some c =>
      rw [hc] at h
      exact ih _ _ _ e h

/-- The only way `print` fails is by running out of fuel. -/
theorem print_error (fuel : Nat) (self : NormalDistributionSimulation) (scale : ℚ)
    (e : Failure) (h : print fuel self scale = .error e) : e = .outOfFuel := by
  unfold print at h
  cases hp : printLoop fuel self.occurrencesPerTrial scale
      ((self.occurrencesPerTrial + 1 - 0).toNat + fuel) 0
      self.mapNumPositiveOccurrencesToFrequency "" with
  | ok r => rw [hp] at h; simp at h
  | error e1 =>
    rw [hp] at h
    simp only [Except.error.injEq] at h
    rw [← h]
    exact printLoop_error fuel _ scale _ 0 _ "" e1 hp

/-- The method `print`, for `occurrencesPerTrial` below the largest `int` and when the bar loop
of every key `k` in `[0, occurrencesPerTrial]` returns after `bar k` markers: it returns,
having written one line per key in ascending order. -/
theorem print_run (fuel : Nat) (self : NormalDistributionSimulation) (scale : ℚ)
    (bar : Int → Nat) (hopt : self.occurrencesPerTrial < 2147483647)
    (hbar : ∀ k, 0 ≤ k → k ≤ self.occurrencesPerTrial →
      barCount scale (StdMap.get self.mapNumPositiveOccurrencesToFrequency k) fuel 0
        = some (bar k)) :
    print fuel self scale
      = .ok (⟨self.occurrencesPerTrial, self.numTrials,
              touched self.mapNumPositiveOccurrencesToFrequency 0
                (self.occurrencesPerTrial + 1).toNat⟩,
             renderLines bar 0 (self.occurrencesPerTrial + 1).toNat) := by
  unfold print
  rw [printLoop_run fuel self.occurrencesPerTrial scale bar
    self.mapNumPositiveOccurrencesToFrequency hopt hbar _ 0 _ "" le_rfl (by omega)
    (fun _ => rfl)]
  simp

/-- A call of `print` that returns: `occurrencesPerTrial` is below the largest `int` and the
bar loop of every key in `[0, occurrencesPerTrial]` has returned. -/
theorem print_ok_inv (fuel : Nat) (self : NormalDistributionSimulation) (scale : ℚ)
    (r : NormalDistributionSimulation × String) (h : print fuel self scale = .ok r) :
    self.occurrencesPerTrial < 2147483647 ∧
      ∀ k, 0 ≤ k → k ≤ self.occurrencesPerTrial →
        ∃ c, barCount scale (StdMap.get self.mapNumPositiveOccurrencesToFrequency k) fuel 0
          = some c := by
  unfold print at h
  cases hp : printLoop fuel self.occurrencesPerTrial scale
      ((self.occurrencesPerTrial + 1 - 0).toNat + fuel) 0
      self.mapNumPositiveOccurrencesToFrequency "" with
  | error e => rw [hp] at h; simp at h
  | ok r1 =>
    have hopt : self.occurrencesPerTrial < 2147483647 := by
      by_contra hge
      exact printLoop_never fuel _ scale (not_lt.mp hge) _ 0 _ "" r1 (by norm_num) hp
    exact ⟨hopt, printLoop_ok_inv fuel _ scale hopt _ 0 _ "" r1 le_rfl hp⟩

/-- What a call of `print` that returns has written: for each key the markers its bar loop
counts. -/
theorem print_ok_eq (fuel : Nat) (self : NormalDistributionSimulation) (scale : ℚ)
    (r : NormalDistributionSimulation × String) (h : print fuel self scale = .ok r) :
    r = (⟨self.occurrencesPerTrial, self.numTrials,
            touched self.mapNumPositiveOccurrencesToFrequency 0
              (self.occurrencesPerTrial + 1).toNat⟩,
         renderLines (fun k => (barCount scale
             (StdMap.get self.mapNumPositiveOccurrencesToFrequency k) fuel 0).getD 0)
           0 (self.occurrencesPerTrial + 1).toNat) := by
  obtain ⟨hopt, hall⟩ := print_ok_inv fuel self scale r h
  have hrun := print_run fuel self scale
    (fun k => (barCount scale
      (StdMap.get self.mapNumPositiveOccurrencesToFrequency k) fuel 0).getD 0) hopt
    (fun k hk0 hk => by
      obtain ⟨c, hc⟩ := hall k hk0 hk
      simp only [hc, Option.getD_some])
  rw [hrun] at h
  simp only [Except.ok.injEq] at h
  exact h.symm

/-- For `occurrencesPerTrial` at the largest `int` the outer loop of `print` never ends:
`print` exhausts any fuel. -/
theorem print_never_of_intMax (fuel : Nat) (self : NormalDistributionSimulation) (scale : ℚ)
    (hopt : 2147483647 ≤ self.occurrencesPerTrial) :
    print fuel self scale = .error .outOfFuel := by
  cases hp : print fuel self scale with
  | ok r => exact absurd (print_ok_inv fuel self scale r hp).1 (not_lt.mpr hopt)
  | error e => rw [print_error fuel self scale e hp]

/-- When the bar loop of some key in `[0, occurrencesPerTrial]` is still running after `fuel`
tests, so is `print`. -/
theorem print_diverges (fuel : Nat) (self : NormalDistributionSimulation) (scale : ℚ)
    (hk : ∃ k, 0 ≤ k ∧ k ≤ self.occurrencesPerTrial ∧
      barCount scale (StdMap.get self.mapNumPositiveOccurrencesToFrequency k) fuel 0 = none) :
    print fuel self scale = .error .outOfFuel := by
  obtain ⟨k, h0, h1, h2⟩ := hk
  cases hp : print fuel self scale with
  | ok r =>
    obtain ⟨c, hc⟩ := (print_ok_inv fuel self scale r hp).2 k h0 h1
    rw [h2] at hc
    simp at hc
  | error e => rw [print_error fuel self scale e hp]

/-- Finitely many bars have a common bound on their lengths. -/
theorem exists_fuel (f : Int → Nat) (n : Nat) :
    ∃ N : Nat, ∀ k : Int, 0 ≤ k → k < n → f k < N := by
  induction n with
  | zero => exact ⟨0, fun k h0 h1 => by simp at h1; omega⟩
  | succ n ih =>
    obtain ⟨N, hN⟩ := ih
    refine ⟨max N (f n + 1), fun k h0 h1 => ?_⟩
    rcases eq_or_lt_of_le (show k ≤ (n : Int) by push_cast at h1; omega) with h | h
    · subst h
      exact lt_of_lt_of_le (Nat.lt_succ_self _) (le_max_right _ _)
    · exact lt_of_lt_of_le (hN k h0 h) (le_max_left _ _)

/-- With a positive `scale` whose accumulation makes no rounding, `occurrencesPerTrial` below
the largest `int` and enough fuel, `print` returns, and the bar of every key `k` in
`[0, occurrencesPerTrial]` has `barLength frequency[k] scale` markers. -/
theorem print_exact (self : NormalDistributionSimulation) (scale : ℚ) (hs : 0 < scale)
    (hopt : self.occurrencesPerTrial < 2147483647)
    (hex : ∀ k, 0 ≤ k → k ≤ self.occurrencesPerTrial →
      ExactMultiples scale (StdMap.get self.mapNumPositiveOccurrencesToFrequency k)) :
    ∃ N : Nat, ∀ fuel, N ≤ fuel →
      print fuel self scale
        = .ok (⟨self.occurrencesPerTrial, self.numTrials,
                touched self.mapNumPositiveOccurrencesToFrequency 0
                  (self.occurrencesPerTrial + 1).toNat⟩,
               renderLines
                 (fun k => barLength (StdMap.get self.mapNumPositiveOccurrencesToFrequency k) scale)
                 0 (self.occurrencesPerTrial + 1).toNat) := by
  obtain ⟨N, hN⟩ := exists_fuel
    (fun k => barLength (StdMap.get self.mapNumPositiveOccurrencesToFrequency k) scale)
    (self.occurrencesPerTrial + 1).toNat
  refine ⟨N, fun fuel hfuel => print_run fuel self scale _ hopt ?_⟩
  intro k hk0 hk
  have hlt : barLength (StdMap.get self.mapNumPositiveOccurrencesToFrequency k) scale < fuel := by
    refine lt_of_lt_of_le (hN k hk0 ?_) hfuel
    rw [Int.toNat_of_nonneg (by omega)]
    omega
  have := barCount_exact scale _ hs (hex k hk0 hk) fuel 0 (Nat.zero_le _) (by simpa using hlt)
  simpa using this

end NormalDistributionSimulation

/-! ## Worked roundings -/

theorem roundDouble_one : roundDouble 1 = 1 := by
  simpa using roundDouble_natCast 1 (by norm_num)

theorem roundDouble_two : roundDouble 2 = 2 := by
  simpa using roundDouble_natCast 2 (by norm_num)

/-- The multiples `n * 2 ^ (-60)` up to `n = 2 ^ 53` are doubles. -/
theorem roundDouble_mul_two_pow_neg_sixty (n : Nat) (hn : n ≤ 2 ^ 53) :
    roundDouble ((n : ℚ) * (1 / 2 ^ 60)) = (n : ℚ) * (1 / 2 ^ 60) := by
  have hnn : (0 : ℚ) ≤ (n : ℚ) * (1 / 2 ^ 60) := by positivity
  rw [roundDouble_of_pos hnn]
  rcases lt_or_eq_of_le hn with hlt | heq
  · have e : (n : ℚ) * (1 / 2 ^ 60) = (n : ℚ) * 2 ^ (-60 : Int) := by norm_num
    rw [e]
    apply roundMagnitude_exact n (-60) hlt (by norm_num)
    have h1 : (n : ℚ) ≤ 2 ^ (53 : Nat) := by exact_mod_cast hn
    have h2 : (n : ℚ) * 2 ^ (-60 : Int) ≤ 2 ^ (53 : Nat) * 2 ^ (-60 : Int) :=
      mul_le_mul_of_nonneg_right h1 (two_zpow_pos _).le
    refine le_trans h2 ?_
    norm_num
  · have e : (n : ℚ) * (1 / 2 ^ 60) = ((1 : Nat) : ℚ) * 2 ^ (-7 : Int) := by
      rw [heq]; norm_num
    rw [e]
    exact roundMagnitude_exact 1 (-7) (by norm_num) (by norm_num) (by norm_num)

/-- Adding `2 ^ (-60)` to `2 ^ (-7)` is a tie between `2 ^ (-7)` and the next double, and goes
to `2 ^ (-7)`, whose mantissa is even: the sum is absorbed. -/
theorem fadd_absorbed : fadd (1 / 2 ^ 7) (1 / 2 ^ 60) = 1 / 2 ^ 7 := by
  unfold fadd roundDouble
  rw [if_neg (by norm_num)]
  rw [roundMagnitude_eval _ (-7) (2 ^ 52) (by norm_num) (by norm_num) (by norm_num)
    (roundHalfEven_tie_even _ _ (by norm_num) (by norm_num)) (by norm_num)]
  norm_num

/-- At the scale `2 ^ (-60)` the accumulator climbs in exact steps to `2 ^ (-7)` and stays
there: the bar loop of a key of frequency `1` never exits. -/
theorem barCount_stall : ∀ fuel : Nat, barCount (1 / 2 ^ 60) 1 fuel 0 = none := by
  have hinc : fmul 1 (1 / 2 ^ 60) = 1 / 2 ^ 60 := by
    have := roundDouble_mul_two_pow_neg_sixty 1 (by norm_num)
    simpa [fmul] using this
  have hA : ∀ fuel : Nat, barCount (1 / 2 ^ 60) 1 fuel (1 / 2 ^ 7) = none := by
    intro fuel
    induction fuel with
    | zero => rfl
    | succ fuel ih =>
      simp only [barCount, hinc, fadd_absorbed, ih]
      norm_num
  have hB : ∀ (d n : Nat), n + d = 2 ^ 53 → ∀ fuel : Nat,
      barCount (1 / 2 ^ 60) 1 fuel ((n : ℚ) * (1 / 2 ^ 60)) = none := by
    intro d
    induction d with
    | zero =>
      intro n hn fuel
      have e : (n : ℚ) * (1 / 2 ^ 60) = 1 / 2 ^ 7 := by
        have : n = 2 ^ 53 := by omega
        rw [this]; norm_num
      rw [e]
      exact hA fuel
    | succ d ih =>
      intro n hn fuel
      cases fuel with
      | zero => rfl
      | succ fuel =>
        have hlt : (n : ℚ) * (1 / 2 ^ 60) < ((1 : Int) : ℚ) := by
          have h1 : (n : ℚ) ≤ 2 ^ (53 : Nat) := by
            have : n ≤ 2 ^ 53 := by omega
            exact_mod_cast this
          have h2 : (n : ℚ) * (1 / 2 ^ 60) ≤ 2 ^ (53 : Nat) * (1 / 2 ^ 60) :=
            mul_le_mul_of_nonneg_right h1 (by positivity)
          refine lt_of_le_of_lt h2 ?_
          norm_num
        have hnext : fadd ((n : ℚ) * (1 / 2 ^ 60)) (1 / 2 ^ 60)
            = ((n + 1 : Nat) : ℚ) * (1 / 2 ^ 60) := by
          unfold fadd
          rw [← roundDouble_mul_two_pow_neg_sixty (n + 1) (by omega)]
          congr 1
          push_cast
          ring
        simp only [barCount, if_pos hlt, hinc, hnext, ih (n + 1) (by omega) fuel,
          Option.map_none']
  intro fuel
  have := hB (2 ^ 53) 0 (by norm_num) fuel
  simpa using this

theorem roundDouble_oneThird : roundDouble oneThird = oneThird := by
  have hnn : (0 : ℚ) ≤ oneThird := by unfold oneThird; norm_num
  rw [roundDouble_of_pos hnn]
  have e : oneThird = ((6004799503160661 : Nat) : ℚ) * 2 ^ (-54 : Int) := by
    unfold oneThird; norm_num
  rw [e]
  exact roundMagnitude_exact _ (-54) (by norm_num) (by norm_num) (by norm_num)

theorem roundDouble_two_oneThird : roundDouble (oneThird + oneThird) = oneThird + oneThird := by
  have hnn : (0 : ℚ) ≤ oneThird + oneThird := by unfold oneThird; norm_num
  rw [roundDouble_of_pos hnn]
  have e : oneThird + oneThird = ((6004799503160661 : Nat) : ℚ) * 2 ^ (-53 : Int) := by
    unfold oneThird; norm_num
  rw [e]
  exact roundMagnitude_exact _ (-53) (by norm_num) (by norm_num) (by norm_num)

/-- Three times the double nearest to one third lies halfway between `1 - 2 ^ (-53)` and `1`:
the sum rounds to `1`. -/
theorem roundDouble_three_oneThird : roundDouble (oneThird + oneThird + oneThird) = 1 := by
  unfold roundDouble oneThird
  rw [if_neg (by norm_num)]
  rw [roundMagnitude_eval _ (-1) (2 ^ 53) (by norm_num) (by norm_num) (by norm_num)
    (by
      have := roundHalfEven_tie_odd (2 ^ 53 - 1)
        ((6004799503160661 / 18014398509481984 + 6004799503160661 / 18014398509481984
          + 6004799503160661 / 18014398509481984) / 2 ^ ((-1 : Int) - 52))
        (by norm_num) (by norm_num)
      simpa using this) (by norm_num)]
  norm_num

/-- At the scale `oneThird` the bar loop of a key of frequency `1` writes three markers: the
third sum rounds up to `1`. -/
theorem barCount_oneThird : barCount oneThird 1 4 0 = some 3 := by
  have hinc : fmul 1 oneThird = oneThird := by
    simpa [fmul] using roundDouble_oneThird
  have h1 : fadd 0 oneThird = oneThird := by
    simpa [fadd] using roundDouble_oneThird
  have h2 : fadd oneThird oneThird = oneThird + oneThird := roundDouble_two_oneThird
  have h3 : fadd (oneThird + oneThird) oneThird = 1 := roundDouble_three_oneThird
  have c0 : (0 : ℚ) < ((1 : Int) : ℚ) := by norm_num
  have c1 : oneThird < ((1 : Int) : ℚ) := by unfold oneThird; norm_num
  have c2 : oneThird + oneThird < ((1 : Int) : ℚ) := by unfold oneThird; norm_num
  have c3 : ¬ ((1 : ℚ) < ((1 : Int) : ℚ)) := by norm_num
  simp only [barCount, hinc, h1, h2, h3, if_pos c0, if_pos c1, if_pos c2, if_neg c3,
    Option.map_some']

theorem roundHalfEven_of_lt (f : Int) (t : ℚ) (h1 : (f : ℚ) ≤ t) (h2 : t < (f : ℚ) + 1 / 2) :
    roundHalfEven t = f := by
  have hfl : ⌊t⌋ = f := by
    rw [Int.floor_eq_iff]
    constructor <;> linarith
  unfold roundHalfEven
  rw [hfl, if_pos (by linarith)]

theorem roundHalfEven_of_gt (f : Int) (t : ℚ) (h1 : (f : ℚ) + 1 / 2 < t) (h2 : t < (f : ℚ) + 1) :
    roundHalfEven t = f + 1 := by
  have hfl : ⌊t⌋ = f := by
    rw [Int.floor_eq_iff]
    constructor <;> linarith
  unfold roundHalfEven
  rw [hfl, if_neg (by linarith), if_pos (by linarith)]

theorem roundDouble_oneTenth : roundDouble oneTenth = oneTenth := by
  have hnn : (0 : ℚ) ≤ oneTenth := by unfold oneTenth; norm_num
  rw [roundDouble_of_pos hnn]
  have e : oneTenth = ((3602879701896397 : Nat) : ℚ) * 2 ^ (-55 : Int) := by
    unfold oneTenth; norm_num
  rw [e]
  exact roundMagnitude_exact _ (-55) (by norm_num) (by norm_num) (by norm_num)

theorem roundDouble_oneFifth : roundDouble oneFifth = oneFifth := by
  have hnn : (0 : ℚ) ≤ oneFifth := by unfold oneFifth; norm_num
  rw [roundDouble_of_pos hnn]
  have e : oneFifth = ((3602879701896397 : Nat) : ℚ) * 2 ^ (-54 : Int) := by
    unfold oneFifth; norm_num
  rw [e]
  exact roundMagnitude_exact _ (-54) (by norm_num) (by norm_num) (by norm_num)

/-- At the scale `0.1` the bar loop of a key of frequency `1` writes eleven markers: the tenth
sum is `1 - 2 ^ (-53)`, still below `1`. -/
theorem barCount_oneTenth : barCount oneTenth 1 12 0 = some 11 := by
  have hinc : fmul 1 oneTenth = oneTenth := by
    simpa [fmul] using roundDouble_oneTenth
  have h0 : fadd (0 : ℚ) oneTenth = (3602879701896397 / 36028797018963968 : ℚ) := by
    unfold fadd roundDouble oneTenth
    rw [if_neg (by norm_num)]
    rw [roundMagnitude_eval _ (-4) (7205759403792794) (by norm_num) (by norm_num) (by norm_num)
      (roundHalfEven_of_lt (7205759403792794) _ (by norm_num) (by norm_num)) (by norm_num)]
    norm_num
  have h1 : fadd (3602879701896397 / 36028797018963968 : ℚ) oneTenth = (3602879701896397 / 18014398509481984 : ℚ) := by
    unfold fadd roundDouble oneTenth
    rw [if_neg (by norm_num)]
    rw [roundMagnitude_eval _ (-3) (7205759403792794) (by norm_num) (by norm_num) (by norm_num)
      (roundHalfEven_of_lt (7205759403792794) _ (by norm_num) (by norm_num)) (by norm_num)]
    norm_num
  have h2 : fadd (3602879701896397 / 18014398509481984 : ℚ) oneTenth = (1351079888211149 / 4503599627370496 : ℚ) := by
    unfold fadd roundDouble oneTenth
    rw [if_neg (by norm_num)]
    rw [roundMagnitude_eval _ (-2) (5404319552844596) (by norm_num) (by norm_num) (by norm_num)
      (by have := roundHalfEven_tie_odd (5404319552844595) (((3602879701896397 / 18014398509481984 : ℚ) + (3602879701896397 / 36028797018963968 : ℚ)) / 2 ^ ((-2 : Int) - 52)) (by norm_num) (by norm_num); simpa using this) (by norm_num)]
    norm_num
  have h3 : fadd (1351079888211149 / 4503599627370496 : ℚ) oneTenth = (3602879701896397 / 9007199254740992 : ℚ) := by
    unfold fadd roundDouble oneTenth
    rw [if_neg (by norm_num)]
    rw [roundMagnitude_eval _ (-2) (7205759403792794) (by norm_num) (by norm_num) (by norm_num)
      (roundHalfEven_tie_even (7205759403792794) _ (by norm_num) (by norm_num)) (by norm_num)]
    norm_num
  have h4 : fadd (3602879701896397 / 9007199254740992 : ℚ) oneTenth = (1 / 2 : ℚ) := by
    unfold fadd roundDouble oneTenth
    rw [if_neg (by norm_num)]
    rw [roundMagnitude_eval _ (-1) (4503599627370496) (by norm_num) (by norm_num) (by norm_num)
      (roundHalfEven_of_lt (4503599627370496) _ (by norm_num) (by norm_num)) (by norm_num)]
    norm_num
  have h5 : fadd (1 / 2 : ℚ) oneTenth = (5404319552844595 / 9007199254740992 : ℚ) := by
    unfold fadd roundDouble oneTenth
    rw [if_neg (by norm_num)]
    rw [roundMagnitude_eval _ (-1) (5404319552844595) (by norm_num) (by norm_num) (by norm_num)
      (roundHalfEven_of_lt (5404319552844595) _ (by norm_num) (by norm_num)) (by norm_num)]
    norm_num
  have h6 : fadd (5404319552844595 / 9007199254740992 : ℚ) oneTenth = (3152519739159347 / 4503599627370496 : ℚ) := by
    unfold fadd roundDouble oneTenth
    rw [if_neg (by norm_num)]
    rw [roundMagnitude_eval _ (-1) (6305039478318694) (by norm_num) (by norm_num) (by norm_num)
      (roundHalfEven_of_lt (6305039478318694) _ (by norm_num) (by norm_num)) (by norm_num)]
    norm_num
  have h7 : fadd (3152519739159347 / 4503599627370496 : ℚ) oneTenth = (7205759403792793 / 9007199254740992 : ℚ) := by
    unfold fadd roundDouble oneTenth
    rw [if_neg (by norm_num)]
    rw [roundMagnitude_eval _ (-1) (7205759403792793) (by norm_num) (by norm_num) (by norm_num)
      (roundHalfEven_of_lt (7205759403792793) _ (by norm_num) (by norm_num)) (by norm_num)]
    norm_num
  have h8 : fadd (7205759403792793 / 9007199254740992 : ℚ) oneTenth = (2026619832316723 / 2251799813685248 : ℚ) := by
    unfold fadd roundDouble oneTenth
    rw [if_neg (by norm_num)]
    rw [roundMagnitude_eval _ (-1) (8106479329266892) (by norm_num) (by norm_num) (by norm_num)
      (roundHalfEven_of_lt (8106479329266892) _ (by norm_num) (by norm_num)) (by norm_num)]
    norm_num
  have h9 : fadd (2026619832316723 / 2251799813685248 : ℚ) oneTenth = (9007199254740991 / 9007199254740992 : ℚ) := by
    unfold fadd roundDouble oneTenth
    rw [if_neg (by norm_num)]
    rw [roundMagnitude_eval _ (-1) (9007199254740991) (by norm_num) (by norm_num) (by norm_num)
      (roundHalfEven_of_lt (9007199254740991) _ (by norm_num) (by norm_num)) (by norm_num)]
    norm_num
  have h10 : fadd (9007199254740991 / 9007199254740992 : ℚ) oneTenth = (4953959590107545 / 4503599627370496 : ℚ) := by
    unfold fadd roundDouble oneTenth
    rw [if_neg (by norm_num)]
    rw [roundMagnitude_eval _ (0) (4953959590107545) (by norm_num) (by norm_num) (by norm_num)
      (roundHalfEven_of_lt (4953959590107545) _ (by norm_num) (by norm_num)) (by norm_num)]
    norm_num
  have c0 : (0 : ℚ) < ((1 : Int) : ℚ) := by norm_num
  have c1 : (3602879701896397 / 36028797018963968 : ℚ) < ((1 : Int) : ℚ) := by norm_num
  have c2 : (3602879701896397 / 18014398509481984 : ℚ) < ((1 : Int) : ℚ) := by norm_num
  have c3 : (1351079888211149 / 4503599627370496 : ℚ) < ((1 : Int) : ℚ) := by norm_num
  have c4 : (3602879701896397 / 9007199254740992 : ℚ) < ((1 : Int) : ℚ) := by norm_num
  have c5 : (1 / 2 : ℚ) < ((1 : Int) : ℚ) := by norm_num
  have c6 : (5404319552844595 / 9007199254740992 : ℚ) < ((1 : Int) : ℚ) := by norm_num
  have c7 : (3152519739159347 / 4503599627370496 : ℚ) < ((1 : Int) : ℚ) := by norm_num
  have c8 : (7205759403792793 / 9007199254740992 : ℚ) < ((1 : Int) : ℚ) := by norm_num
  have c9 : (2026619832316723 / 2251799813685248 : ℚ) < ((1 : Int) : ℚ) := by norm_num
  have c10 : (9007199254740991 / 9007199254740992 : ℚ) < ((1 : Int) : ℚ) := by norm_num
  have cend : ¬ ((4953959590107545 / 4503599627370496 : ℚ) < ((1 : Int) : ℚ)) := by norm_num
  simp only [barCount, hinc, h0, if_pos c0, h1, if_pos c1, h2, if_pos c2, h3, if_pos c3, h4, if_pos c4, h5, if_pos c5, h6, if_pos c6, h7, if_pos c7, h8, if_pos c8, h9, if_pos c9, h10, if_pos c10, if_neg cend, Option.map_some']

/-- At the scale `0.2` the bar loop of a key of frequency `1` writes five markers: the fifth
sum is `1`. -/
theorem barCount_oneFifth : barCount oneFifth 1 12 0 = some 5 := by
  have hinc : fmul 1 oneFifth = oneFifth := by
    simpa [fmul] using roundDouble_oneFifth
  have h0 : fadd (0 : ℚ) oneFifth = (3602879701896397 / 18014398509481984 : ℚ) := by
    unfold fadd roundDouble oneFifth
    rw [if_neg (by norm_num)]
    rw [roundMagnitude_eval _ (-3) (7205759403792794) (by norm_num) (by norm_num) (by norm_num)
      (roundHalfEven_of_lt (7205759403792794) _ (by norm_num) (by norm_num)) (by norm_num)]
    norm_num
  have h1 : fadd (3602879701896397 / 18014398509481984 : ℚ) oneFifth = (3602879701896397 / 9007199254740992 : ℚ) := by
    unfold fadd roundDouble oneFifth
    rw [if_neg (by norm_num)]
    rw [roundMagnitude_eval _ (-2) (7205759403792794) (by norm_num) (by norm_num) (by norm_num)
      (roundHalfEven_of_lt (7205759403792794) _ (by norm_num) (by norm_num)) (by norm_num)]
    norm_num
  have h2 : fadd (3602879701896397 / 9007199254740992 : ℚ) oneFifth = (1351079888211149 / 2251799813685248 : ℚ) := by
    unfold fadd roundDouble oneFifth
    rw [if_neg (by norm_num)]
    rw [roundMagnitude_eval _ (-1) (5404319552844596) (by norm_num) (by norm_num) (by norm_num)
      (by have := roundHalfEven_tie_odd (5404319552844595) (((3602879701896397 / 9007199254740992 : ℚ) + (3602879701896397 / 18014398509481984 : ℚ)) / 2 ^ ((-1 : Int) - 52)) (by norm_num) (by norm_num); simpa using this) (by norm_num)]
    norm_num
  have h3 : fadd (1351079888211149 / 2251799813685248 : ℚ) oneFifth = (3602879701896397 / 4503599627370496 : ℚ) := by
    unfold fadd roundDouble oneFifth
    rw [if_neg (by norm_num)]
    rw [roundMagnitude_eval _ (-1) (7205759403792794) (by norm_num) (by norm_num) (by norm_num)
      (roundHalfEven_tie_even (7205759403792794) _ (by norm_num) (by norm_num)) (by norm_num)]
    norm_num
  have h4 : fadd (3602879701896397 / 4503599627370496 : ℚ) oneFifth = (1 : ℚ) := by
    unfold fadd roundDouble oneFifth
    rw [if_neg (by norm_num)]
    rw [roundMagnitude_eval _ (0) (4503599627370496) (by norm_num) (by norm_num) (by norm_num)
      (roundHalfEven_of_lt (4503599627370496) _ (by norm_num) (by norm_num)) (by norm_num)]
    norm_num
  have c0 : (0 : ℚ) < ((1 : Int) : ℚ) := by norm_num
  have c1 : (3602879701896397 / 18014398509481984 : ℚ) < ((1 : Int) : ℚ) := by norm_num
  have c2 : (3602879701896397 / 9007199254740992 : ℚ) < ((1 : Int) : ℚ) := by norm_num
  have c3 : (1351079888211149 / 2251799813685248 : ℚ) < ((1 : Int) : ℚ) := by norm_num
  have c4 : (3602879701896397 / 4503599627370496 : ℚ) < ((1 : Int) : ℚ) := by norm_num
  have cend : ¬ ((1 : ℚ) < ((1 : Int) : ℚ)) := by norm_num
  simp only [barCount, hinc, h0, if_pos c0, h1, if_pos c1, h2, if_pos c2, h3, if_pos c3, h4, if_pos c4, if_neg cend, Option.map_some']

namespace NormalDistributionSimulation

/-- Evaluating `map[k]` for keys that are all present leaves the map as it was. -/
theorem touched_of_present (n : Nat) :
    ∀ (m : StdMap) (i : Int),
      (∀ k, i ≤ k → k < i + n → StdMap.find m k ≠ none) → touched m i n = m := by
  induction n with
  | zero => intro m i _; rfl
  | succ n ih =>
    intro m i h
    have hs : StdMap.subscript m i = m := by
      unfold StdMap.subscript
      cases hf : StdMap.find m i with
      | some v => rfl
      | none => exact absurd hf (h i le_rfl (by push_cast; omega))
    rw [touched, hs]
    exact ih m (i + 1) (fun k h1 h2 => h k (by omega) (by push_cast; omega))

end NormalDistributionSimulation

/-! ## The frequencies of a built simulator -/

/-- The lines depend only on the bars of the keys they are for. -/
theorem renderLines_congr (b1 b2 : Int → Nat) (n : Nat) :
    ∀ i : Int, (∀ k, i ≤ k → k < i + n → b1 k = b2 k) →
      renderLines b1 i n = renderLines b2 i n := by
  induction n with
  | zero => intro i _; rfl
  | succ n ih =>
    intro i h
    rw [renderLines, renderLines, h i le_rfl (by push_cast; omega),
      ih (i + 1) (fun k h1 h2 => h k (by omega) (by push_cast; omega))]

namespace NormalDistributionSimulation

/-- The value the constructed table reads at a key: the number of trials that counted that
many positive draws. -/
theorem ctor_get (opt nt : Int) (rand : Nat → Nat) (k : Int) :
    StdMap.get (ctor opt nt rand).mapNumPositiveOccurrencesToFrequency k
      = (trialsWithPositives rand opt.toNat nt.toNat k : Int) := by
  have h := (tallied_spec rand opt nt _ (cleared_spec nt).1 (cleared_spec nt).2).2.2 k
  simpa only [ctor] using h

theorem ctor_get_nonneg (opt nt : Int) (rand : Nat → Nat) (k : Int) :
    0 ≤ StdMap.get (ctor opt nt rand).mapNumPositiveOccurrencesToFrequency k := by
  rw [ctor_get]
  exact Int.natCast_nonneg _

theorem ctor_get_le (opt nt : Int) (rand : Nat → Nat) (k : Int) :
    StdMap.get (ctor opt nt rand).mapNumPositiveOccurrencesToFrequency k ≤ (nt.toNat : Int) := by
  rw [ctor_get]
  have : trialsWithPositives rand opt.toNat nt.toNat k ≤ nt.toNat := by
    simpa [trialsWithPositives] using
      List.countP_le_length (fun t => (positivesInTrial rand opt.toNat t : Int) == k)
        (l := List.range nt.toNat)
  exact_mod_cast this

/-- A positive whole scale below `2 ^ 52` accumulates without rounding towards every frequency
of a simulator built with `numTrials` below `2 ^ 52`, as every `int` is. -/
theorem exactMultiples_ctor (s : Nat) (hs : 0 < s) (hs2 : s < 2 ^ 52) (opt nt : Int)
    (rand : Nat → Nat) (hnt : nt < 2 ^ 52) (k : Int) :
    ExactMultiples (s : ℚ)
      (StdMap.get (ctor opt nt rand).mapNumPositiveOccurrencesToFrequency k) := by
  apply exactMultiples_natCast s _ hs hs2
  have := ctor_get_le opt nt rand k
  omega

end NormalDistributionSimulation

/-! ## The frequency table after construction -/

/-- C1: for every `occurrencesPerTrial ≥ 0`, every `numTrials ≥ 0` and every sequence of
draws, the values of the frequency table after construction sum to `numTrials`. -/
theorem ctor_values_sum (opt nt : Int) (rand : Nat → Nat) (_hopt : 0 ≤ opt) (hnt : 0 ≤ nt) :
    (StdMap.values (ctor opt nt rand).mapNumPositiveOccurrencesToFrequency).sum = nt := by
  have h := (tallied_spec rand opt nt _ (cleared_spec nt).1 (cleared_spec nt).2).2.1
  simp only [ctor]
  rw [h, Int.toNat_of_nonneg hnt]

/-- C1 at `occurrencesPerTrial = 2`, `numTrials = 4` and the draws `[T, T, F, F, T, F, F, T]`:
the values sum to `4`. -/
theorem ctor_values_sum_witness :
    (0 : Int) ≤ 2 ∧ (0 : Int) ≤ 4 ∧
      (StdMap.values (ctor 2 4 exampleDraws).mapNumPositiveOccurrencesToFrequency).sum = 4 :=
  ⟨by decide, by decide, ctor_values_sum 2 4 exampleDraws (by decide) (by decide)⟩

/-- C2: for every `occurrencesPerTrial ≥ 0`, `numTrials ≥ 0` and draw sequence, trial `t`
consuming the draws at positions `t * occurrencesPerTrial, ...,
(t + 1) * occurrencesPerTrial - 1` in order, and every `k` in `[0, occurrencesPerTrial]`, the
value the constructed table holds at `k` (read as `map[k]`) is the number of trials in which
exactly `k` draws were positive. -/
theorem ctor_get_eq_trialsWithPositives (opt nt : Int) (rand : Nat → Nat) (_hopt : 0 ≤ opt)
    (_hnt : 0 ≤ nt) (k : Int) (_hk0 : 0 ≤ k) (_hk : k ≤ opt) :
    StdMap.get (ctor opt nt rand).mapNumPositiveOccurrencesToFrequency k
      = (trialsWithPositives rand opt.toNat nt.toNat k : Int) := by
  have h := (tallied_spec rand opt nt _ (cleared_spec nt).1 (cleared_spec nt).2).2.2 k
  simpa only [ctor] using h

/-- C2 at `occurrencesPerTrial = 2`, `numTrials = 4` and the draws `[T, T, F, F, T, F, F, T]`:
the table holds `1` at key `0`, `2` at key `1` and `1` at key `2`. -/
theorem ctor_get_eq_trialsWithPositives_witness :
    (0 : Int) ≤ 2 ∧ (0 : Int) ≤ 4 ∧
      StdMap.get (ctor 2 4 exampleDraws).mapNumPositiveOccurrencesToFrequency 0 = 1 ∧
      StdMap.get (ctor 2 4 exampleDraws).mapNumPositiveOccurrencesToFrequency 1 = 2 ∧
      StdMap.get (ctor 2 4 exampleDraws).mapNumPositiveOccurrencesToFrequency 2 = 1 :=
  ⟨by decide, by decide,
    (ctor_get_eq_trialsWithPositives 2 4 exampleDraws (by decide) (by decide) 0
      (by decide) (by decide)).trans (by decide),
    (ctor_get_eq_trialsWithPositives 2 4 exampleDraws (by decide) (by decide) 1
      (by decide) (by decide)).trans (by decide),
    (ctor_get_eq_trialsWithPositives 2 4 exampleDraws (by decide) (by decide) 2
      (by decide) (by decide)).trans (by decide)⟩

/-- C3, where the code departs from it: built with `occurrencesPerTrial = 0` and
`numTrials = 2`, the table has the keys `0` and `1`, and the key `1` lies outside `[0, 0]`. -/
theorem ctor_key_above_occurrencesPerTrial :
    StdMap.keys (ctor 0 2 (fun _ => 0)).mapNumPositiveOccurrencesToFrequency = [0, 1] ∧
      ¬ ∀ k ∈ StdMap.keys (ctor 0 2 (fun _ => 0)).mapNumPositiveOccurrencesToFrequency,
          0 ≤ k ∧ k ≤ 0 := by
  decide

/-- C4, where the code departs from it: built with `occurrencesPerTrial = 2` and
`numTrials = 1` on a positive first and second draw, the table has the keys `0` and `2` only;
the key `1` of `[0, 2]` is absent once construction completes. -/
theorem ctor_key_missing :
    StdMap.keys (ctor 2 1 (fun _ => 0)).mapNumPositiveOccurrencesToFrequency = [0, 2] ∧
      StdMap.find (ctor 2 1 (fun _ => 0)).mapNumPositiveOccurrencesToFrequency 1 = none ∧
      ¬ ∀ k ∈ [0, 1, 2],
          k ∈ StdMap.keys (ctor 2 1 (fun _ => 0)).mapNumPositiveOccurrencesToFrequency := by
  decide

/-- C5, where the code departs from it: built with `occurrencesPerTrial = 0`, the table is
`{0: 3, 1: 0, 2: 0}` for `numTrials = 3`, not `{0: 3}`, and it is empty for `numTrials = 0`,
not `{0: 0}`. -/
theorem ctor_zero_occurrences_table :
    (ctor 0 3 (fun _ => 0)).mapNumPositiveOccurrencesToFrequency = [(0, 3), (1, 0), (2, 0)] ∧
      (ctor 0 3 (fun _ => 0)).mapNumPositiveOccurrencesToFrequency ≠ [(0, 3)] ∧
      (ctor 0 0 (fun _ => 0)).mapNumPositiveOccurrencesToFrequency = [] ∧
      (ctor 0 0 (fun _ => 0)).mapNumPositiveOccurrencesToFrequency ≠ [(0, 0)] := by
  decide

/-- C6, where the code departs from it: built with `occurrencesPerTrial = 2` and
`numTrials = 0`, the table is empty: its size is `0`, not `3`, and none of the keys `0`, `1`,
`2` is present. -/
theorem ctor_zero_trials_table :
    (ctor 2 0 (fun _ => 0)).mapNumPositiveOccurrencesToFrequency = [] ∧
      (ctor 2 0 (fun _ => 0)).mapNumPositiveOccurrencesToFrequency.length ≠ 3 ∧
      (ctor 2 0 (fun _ => 0)).mapNumPositiveOccurrencesToFrequency
        ≠ [(0, 0), (1, 0), (2, 0)] := by
  decide

/-! ## The bars of `print` -/

/-- C7 fails as stated: built with `occurrencesPerTrial = 0` and `numTrials = 1`, the table
holds `1` at key `0`; `print(2.0)` writes one marker on line `0`, and `floor(1 / 2)` is `0`.
Nor is the bar `ceil(frequency / scale)` for every scale: `print(0.3333333333333333)` writes
three markers, its third sum rounding up to `1`, and `ceil(1 / 0.3333333333333333)` is `4`. -/
theorem print_bar_length_ne_floor :
    StdMap.get (ctor 0 1 (fun _ => 0)).mapNumPositiveOccurrencesToFrequency 0 = 1 ∧
      ⌊((StdMap.get (ctor 0 1 (fun _ => 0)).mapNumPositiveOccurrencesToFrequency 0 : Int) : ℚ)
          / 2⌋ = 0 ∧
      print 2 (ctor 0 1 (fun _ => 0)) 2 = .ok (⟨0, 1, [(0, 1)]⟩, "0\t" ++ stars 1 ++ "\n") ∧
      "0\t" ++ stars 1 ++ "\n" ≠ "0\t" ++ stars 0 ++ "\n" ∧
      print 4 (ctor 0 1 (fun _ => 0)) oneThird
        = .ok (⟨0, 1, [(0, 1)]⟩, "0\t" ++ stars 3 ++ "\n") ∧
      ⌈((StdMap.get (ctor 0 1 (fun _ => 0)).mapNumPositiveOccurrencesToFrequency 0 : Int) : ℚ)
          / oneThird⌉ = 4 := by
  have hc : ctor 0 1 (fun _ => 0) = ⟨0, 1, [(0, 1)]⟩ := by decide
  rw [hc]
  have hg : StdMap.get [(0, 1)] 0 = 1 := by decide
  refine ⟨by decide, ?_, ?_, by decide, ?_, ?_⟩
  · rw [hg, Int.floor_eq_iff]
    norm_num
  · norm_num [print, printLoop, barLoop, fadd, fmul, wrapInt, roundDouble_two,
      StdMap.subscript, StdMap.get, StdMap.find]
    decide
  · have h := print_run 4 ⟨0, 1, [(0, 1)]⟩ oneThird (fun _ => 3) (by norm_num)
      (fun k hk0 hk => by
        have e : k = 0 := le_antisymm hk hk0
        rw [e, hg]
        exact barCount_oneThird)
    rw [h]
    rfl
  · rw [hg, Int.ceil_eq_iff]
    unfold oneThird
    norm_num

/-- C7 as amended: for every simulator built with `occurrencesPerTrial` below the largest
`int`, every `scale > 0` whose accumulation makes no rounding (every multiple of `scale` up to
the first one that reaches the frequency is a double, as for whole scales) and every `i` in
`[0, occurrencesPerTrial]`, `print(scale)` returns once it has enough fuel, and line `i` of its
output, which follows the lines of the keys `0 .. i - 1` and precedes those of the keys
`i + 1 .. occurrencesPerTrial`, carries `ceil(frequency[i] / scale)` markers. -/
theorem print_bar_length_ceil (opt nt : Int) (rand : Nat → Nat) (scale : ℚ) (i : Int)
    (hs : 0 < scale) (hi0 : 0 ≤ i) (hi : i ≤ opt) (hopt : opt < 2147483647)
    (hex : ∀ k, 0 ≤ k → k ≤ opt →
      ExactMultiples scale (StdMap.get (ctor opt nt rand).mapNumPositiveOccurrencesToFrequency k)) :
    ∃ N : Nat, ∀ fuel, N ≤ fuel → ∃ self',
      print fuel (ctor opt nt rand) scale
        = .ok (self',
            renderLines (fun k => barLength
                (StdMap.get (ctor opt nt rand).mapNumPositiveOccurrencesToFrequency k) scale)
                0 i.toNat
              ++ (toString i ++ "\t"
                ++ stars ⌈((StdMap.get
                    (ctor opt nt rand).mapNumPositiveOccurrencesToFrequency i : Int) : ℚ)
                    / scale⌉.toNat
                ++ "\n")
              ++ renderLines (fun k => barLength
                (StdMap.get (ctor opt nt rand).mapNumPositiveOccurrencesToFrequency k) scale)
                (i + 1) (opt - i).toNat) := by
  obtain ⟨N, hN⟩ := print_exact (ctor opt nt rand) scale hs hopt hex
  refine ⟨N, fun fuel hfuel => ?_⟩
  have h := hN fuel hfuel
  have hopt1 : (ctor opt nt rand).occurrencesPerTrial = opt := rfl
  have e : (opt + 1).toNat = i.toNat + ((opt - i).toNat + 1) := by omega
  have e2 : (0 : Int) + (i.toNat : Int) = i := by omega
  rw [hopt1, e, renderLines_append, renderLines, e2, ← String.append_assoc] at h
  exact ⟨_, h⟩

/-- C7 as amended, at `occurrencesPerTrial = 0`, `numTrials = 1`, `scale = 2` and `i = 0`. -/
theorem print_bar_length_ceil_witness :
    (0 : ℚ) < 2 ∧ (0 : Int) ≤ 0 ∧ (0 : Int) ≤ 0 ∧ (0 : Int) < 2147483647 ∧
    (∀ k, 0 ≤ k → k ≤ 0 →
      ExactMultiples 2
        (StdMap.get (ctor 0 1 (fun _ => 0)).mapNumPositiveOccurrencesToFrequency k)) ∧
    ∃ N : Nat, ∀ fuel, N ≤ fuel → ∃ self',
      print fuel (ctor 0 1 (fun _ => 0)) 2
        = .ok (self',
            renderLines (fun k => barLength
                (StdMap.get (ctor 0 1 (fun _ => 0)).mapNumPositiveOccurrencesToFrequency k) 2)
                0 (0 : Int).toNat
              ++ (toString (0 : Int) ++ "\t"
                ++ stars ⌈((StdMap.get
                    (ctor 0 1 (fun _ => 0)).mapNumPositiveOccurrencesToFrequency 0 : Int) : ℚ)
                    / 2⌉.toNat
                ++ "\n")
              ++ renderLines (fun k => barLength
                (StdMap.get (ctor 0 1 (fun _ => 0)).mapNumPositiveOccurrencesToFrequency k) 2)
                (0 + 1) ((0 : Int) - 0).toNat) :=
  ⟨by norm_num, le_refl 0, le_refl 0, by norm_num,
    fun k _ _ => by
      simpa using exactMultiples_ctor 2 (by norm_num) (by norm_num) 0 1 (fun _ => 0)
        (by norm_num) k,
    print_bar_length_ceil 0 1 (fun _ => 0) 2 0 (by norm_num) (le_refl 0) (le_refl 0)
      (by norm_num)
      (fun k _ _ => by
        simpa using exactMultiples_ctor 2 (by norm_num) (by norm_num) 0 1 (fun _ => 0)
          (by norm_num) k)⟩

/-! ## Arguments outside the documented range -/

/-- C8 fails as stated: with `scale = -1`, `print` of the simulator built with
`occurrencesPerTrial = 0` and `numTrials = 0` completes as a normal render, `"0\t\n"`, with no
error; and `print` of the simulator built with `numTrials = 1` is still in its bar loop after
five tests, again with no invalid-argument error. -/
theorem print_negative_scale_no_error :
    print 1 (ctor 0 0 (fun _ => 0)) (-1) = .ok (⟨0, 0, [(0, 0)]⟩, "0\t\n") ∧
      print 5 (ctor 0 1 (fun _ => 0)) (-1) = .error .outOfFuel ∧
      print 5 (ctor 0 1 (fun _ => 0)) (-1) ≠ .error .invalidArgument := by
  have h0 : ctor 0 0 (fun _ => 0) = ⟨0, 0, []⟩ := by decide
  have h1 : ctor 0 1 (fun _ => 0) = ⟨0, 1, [(0, 1)]⟩ := by decide
  rw [h0, h1]
  have h5 : print 5 ⟨0, 1, [(0, 1)]⟩ (-1) = .error .outOfFuel := by
    apply print_diverges
    exact ⟨0, le_rfl, le_rfl, barCount_diverges _ _ (by norm_num) (by decide) _ _ le_rfl⟩
  refine ⟨?_, h5, ?_⟩
  · norm_num [print, printLoop, barLoop, wrapInt, StdMap.subscript, StdMap.get, StdMap.find,
      StdMap.put]
    decide
  · rw [h5]
    simp

/-- C8 as amended: for every built simulator and every `scale ≤ 0`, `print(scale)` raises no
invalid-argument error, whatever the fuel, and does enter its bar loops: for
`occurrencesPerTrial ≥ 0` it cannot return without fuel for a loop test.  It completes as a
normal render exactly when `occurrencesPerTrial` is below the largest `int` and every key in
`[0, occurrencesPerTrial]` has frequency `0`; the render then has one line per key with an
empty bar and takes one loop test per key. -/
theorem print_nonpos_scale (opt nt : Int) (rand : Nat → Nat) (scale : ℚ) (hs : scale ≤ 0) :
    (∀ fuel, print fuel (ctor opt nt rand) scale ≠ .error .invalidArgument) ∧
    (0 ≤ opt → print 0 (ctor opt nt rand) scale = .error .outOfFuel) ∧
    (∀ fuel r, print fuel (ctor opt nt rand) scale = .ok r →
      opt < 2147483647 ∧
      (∀ k, 0 ≤ k → k ≤ opt →
        StdMap.get (ctor opt nt rand).mapNumPositiveOccurrencesToFrequency k = 0) ∧
      r = (⟨opt, nt, touched (ctor opt nt rand).mapNumPositiveOccurrencesToFrequency 0
                (opt + 1).toNat⟩,
           renderLines (fun _ => 0) 0 (opt + 1).toNat)) ∧
    (opt < 2147483647 →
      (∀ k, 0 ≤ k → k ≤ opt →
        StdMap.get (ctor opt nt rand).mapNumPositiveOccurrencesToFrequency k = 0) →
      ∀ fuel, 1 ≤ fuel →
        print fuel (ctor opt nt rand) scale
          = .ok (⟨opt, nt, touched (ctor opt nt rand).mapNumPositiveOccurrencesToFrequency 0
                    (opt + 1).toNat⟩,
                 renderLines (fun _ => 0) 0 (opt + 1).toNat)) := by
  have hrun : opt < 2147483647 →
      (∀ k, 0 ≤ k → k ≤ opt →
        StdMap.get (ctor opt nt rand).mapNumPositiveOccurrencesToFrequency k = 0) →
      ∀ fuel, 1 ≤ fuel →
        print fuel (ctor opt nt rand) scale
          = .ok (⟨opt, nt, touched (ctor opt nt rand).mapNumPositiveOccurrencesToFrequency 0
                    (opt + 1).toNat⟩,
                 renderLines (fun _ => 0) 0 (opt + 1).toNat) := by
    intro hopt hz fuel hfuel
    obtain ⟨f, rfl⟩ : ∃ f, fuel = f + 1 := ⟨fuel - 1, by omega⟩
    exact print_run (f + 1) (ctor opt nt rand) scale (fun _ => 0) hopt
      (fun k hk0 hk => barCount_nonpos scale _ f (le_of_eq (hz k hk0 hk)))
  refine ⟨fun fuel h => ?_, fun hopt => ?_, fun fuel r h => ?_, hrun⟩
  · have := print_error fuel _ scale _ h
    simp at this
  · exact print_diverges 0 (ctor opt nt rand) scale ⟨0, le_rfl, hopt, rfl⟩
  · obtain ⟨hopt, hall⟩ := print_ok_inv fuel (ctor opt nt rand) scale r h
    have hz : ∀ k, 0 ≤ k → k ≤ opt →
        StdMap.get (ctor opt nt rand).mapNumPositiveOccurrencesToFrequency k = 0 := by
      intro k hk0 hk
      obtain ⟨c, hc⟩ := hall k hk0 hk
      have hnn := ctor_get_nonneg opt nt rand k
      by_contra hne
      have hpos : 0 < StdMap.get (ctor opt nt rand).mapNumPositiveOccurrencesToFrequency k := by
        omega
      rw [barCount_diverges scale _ hs hpos fuel 0 le_rfl] at hc
      simp at hc
    refine ⟨hopt, hz, ?_⟩
    rw [print_ok_eq fuel (ctor opt nt rand) scale r h]
    have hopt1 : (ctor opt nt rand).occurrencesPerTrial = opt := rfl
    have hnt1 : (ctor opt nt rand).numTrials = nt := rfl
    rw [hopt1, hnt1]
    congr 1
    apply renderLines_congr
    intro k hk0 hk
    have hk1 : k ≤ opt := by omega
    obtain ⟨c, hc⟩ := hall k hk0 hk1
    rw [hc]
    cases fuel with
    | zero => simp [barCount] at hc
    | succ f =>
      rw [barCount_nonpos scale _ f (le_of_eq (hz k hk0 hk1))] at hc
      simp only [Option.some.injEq] at hc
      simp [← hc]

/-- C8 as amended, at `occurrencesPerTrial = 0`, `numTrials = 0` and `scale = 0`: `print`
cannot return without fuel, and returns `"0\t\n"` with any. -/
theorem print_nonpos_scale_witness :
    (0 : ℚ) ≤ 0 ∧
    (∀ fuel, print fuel (ctor 0 0 (fun _ => 0)) 0 ≠ .error .invalidArgument) ∧
    ((0 : Int) ≤ 0 → print 0 (ctor 0 0 (fun _ => 0)) 0 = .error .outOfFuel) ∧
    (∀ fuel r, print fuel (ctor 0 0 (fun _ => 0)) 0 = .ok r →
      (0 : Int) < 2147483647 ∧
      (∀ k, 0 ≤ k → k ≤ 0 →
        StdMap.get (ctor 0 0 (fun _ => 0)).mapNumPositiveOccurrencesToFrequency k = 0) ∧
      r = (⟨0, 0, touched (ctor 0 0 (fun _ => 0)).mapNumPositiveOccurrencesToFrequency 0
                ((0 : Int) + 1).toNat⟩,
           renderLines (fun _ => 0) 0 ((0 : Int) + 1).toNat)) ∧
    ((0 : Int) < 2147483647 →
      (∀ k, 0 ≤ k → k ≤ 0 →
        StdMap.get (ctor 0 0 (fun _ => 0)).mapNumPositiveOccurrencesToFrequency k = 0) →
      ∀ fuel, 1 ≤ fuel →
        print fuel (ctor 0 0 (fun _ => 0)) 0
          = .ok (⟨0, 0, touched (ctor 0 0 (fun _ => 0)).mapNumPositiveOccurrencesToFrequency 0
                    ((0 : Int) + 1).toNat⟩,
                 renderLines (fun _ => 0) 0 ((0 : Int) + 1).toNat)) :=
  ⟨le_refl 0, print_nonpos_scale 0 0 (fun _ => 0) 0 (le_refl 0)⟩

/-- C10, where the code departs from it: built with `occurrencesPerTrial = 2` and
`numTrials = 1` on two positive draws, the table is `{0: 0, 2: 1}`; after `print(1.0)` it is
`{0: 0, 1: 0, 2: 1}`: reading `map[1]` in the bar loop has inserted the key `1`. -/
theorem print_inserts_missing_key :
    (ctor 2 1 (fun _ => 0)).mapNumPositiveOccurrencesToFrequency = [(0, 0), (2, 1)] ∧
      print 2 (ctor 2 1 (fun _ => 0)) 1
        = .ok (⟨2, 1, [(0, 0), (1, 0), (2, 1)]⟩, "0\t\n1\t\n2\t*\n") := by
  have h : ctor 2 1 (fun _ => 0) = ⟨2, 1, [(0, 0), (2, 1)]⟩ := by decide
  rw [h]
  refine ⟨rfl, ?_⟩
  norm_num [print, printLoop, barLoop, fadd, fmul, wrapInt, roundDouble_one,
    StdMap.subscript, StdMap.get, StdMap.find, StdMap.put]
  decide

/-! ## The histogram -/

/-- C11 fails as stated: `print` does not always write `occurrencesPerTrial + 1` lines and
stop.  Built with `occurrencesPerTrial = 2147483647` (and no trial), `print(1.0)` never
returns, the test `i <= occurrencesPerTrial` holding for every `int`; and built with
`occurrencesPerTrial = 0` and `numTrials = 1`, `print` at the scale `2 ^ (-60)` never ends its
first line, the accumulator staying at `2 ^ (-7)`. -/
theorem print_output_format_fails :
    (∀ fuel, print fuel (ctor 2147483647 0 (fun _ => 0)) 1 = .error .outOfFuel) ∧
      ∀ fuel, print fuel (ctor 0 1 (fun _ => 0)) (1 / 2 ^ 60) = .error .outOfFuel := by
  refine ⟨fun fuel => print_never_of_intMax fuel _ 1 (le_refl _), fun fuel => ?_⟩
  apply print_diverges
  refine ⟨0, le_rfl, le_rfl, ?_⟩
  have hg : StdMap.get (ctor 0 1 (fun _ => 0)).mapNumPositiveOccurrencesToFrequency 0 = 1 := by
    decide
  rw [hg]
  exact barCount_stall fuel

/-- C11 as amended: for every simulator built with `occurrencesPerTrial ≥ 0` and every
`scale > 0`, whenever `print(scale)` returns, the text it has written is exactly
`occurrencesPerTrial + 1` lines, the line at position `i = 0, ..., occurrencesPerTrial` being
the decimal rendering of `i`, one tab, some number (possibly zero) of `*` and a line break;
nothing precedes the first line or follows the last.  It does return, given enough fuel, when
`occurrencesPerTrial` is below the largest `int` and the accumulation makes no rounding. -/
theorem print_output_format (opt nt : Int) (rand : Nat → Nat) (scale : ℚ) (hopt : 0 ≤ opt)
    (hs : 0 < scale) :
    (∀ fuel r, print fuel (ctor opt nt rand) scale = .ok r →
      ∃ bar : Nat → Nat,
        r.2 = String.join ((List.range (opt.toNat + 1)).map
          (fun i : Nat => Nat.repr i ++ "\t" ++ stars (bar i) ++ "\n"))) ∧
    (opt < 2147483647 →
      (∀ k, 0 ≤ k → k ≤ opt → ExactMultiples scale
        (StdMap.get (ctor opt nt rand).mapNumPositiveOccurrencesToFrequency k)) →
      ∃ N : Nat, ∀ fuel, N ≤ fuel → ∃ r, print fuel (ctor opt nt rand) scale = .ok r) := by
  refine ⟨fun fuel r h => ?_, fun hmax hex => ?_⟩
  · have hr := print_ok_eq fuel (ctor opt nt rand) scale r h
    have hopt1 : (ctor opt nt rand).occurrencesPerTrial = opt := rfl
    have e : (opt + 1).toNat = opt.toNat + 1 := by omega
    rw [hopt1, e, renderLines_eq_join] at hr
    refine ⟨fun i => (barCount scale
      (StdMap.get (ctor opt nt rand).mapNumPositiveOccurrencesToFrequency (i : Int)) fuel 0).getD 0,
      ?_⟩
    rw [hr]
    simp only
    congr 1
    apply List.map_congr_left
    intro k _
    simp only [zero_add, renderLine]
    rfl
  · obtain ⟨N, hN⟩ := print_exact (ctor opt nt rand) scale hs hmax hex
    exact ⟨N, fun fuel hfuel => ⟨_, hN fuel hfuel⟩⟩

/-- C11 as amended, at `occurrencesPerTrial = 0`, `numTrials = 1` and `scale = 2`. -/
theorem print_output_format_witness :
    (0 : Int) ≤ 0 ∧ (0 : ℚ) < 2 ∧
    (∀ fuel r, print fuel (ctor 0 1 (fun _ => 0)) 2 = .ok r →
      ∃ bar : Nat → Nat,
        r.2 = String.join ((List.range ((0 : Int).toNat + 1)).map
          (fun i : Nat => Nat.repr i ++ "\t" ++ stars (bar i) ++ "\n"))) ∧
    ((0 : Int) < 2147483647 →
      (∀ k, 0 ≤ k → k ≤ 0 → ExactMultiples 2
        (StdMap.get (ctor 0 1 (fun _ => 0)).mapNumPositiveOccurrencesToFrequency k)) →
      ∃ N : Nat, ∀ fuel, N ≤ fuel → ∃ r, print fuel (ctor 0 1 (fun _ => 0)) 2 = .ok r) :=
  ⟨le_refl 0, by norm_num,
    print_output_format 0 1 (fun _ => 0) 2 (le_refl 0) (by norm_num)⟩

/-- C12: for every `occurrencesPerTrial ≥ 0`, `numTrials ≥ 0` and draw sequence, every value
stored in the frequency table after construction is a non-negative integer no greater than
`numTrials`; so it fits in an `int` when `numTrials` does. -/
theorem ctor_values_bounded (opt nt : Int) (rand : Nat → Nat) (hopt : 0 ≤ opt) (hnt : 0 ≤ nt) :
    ∀ v ∈ StdMap.values (ctor opt nt rand).mapNumPositiveOccurrencesToFrequency,
      0 ≤ v ∧ v ≤ nt ∧ (nt ≤ 2147483647 → v ≤ 2147483647) := by
  intro v hv
  obtain ⟨e, he, rfl⟩ := List.mem_map.mp hv
  have h := ctor_entries opt nt rand hopt e he
  rw [Int.toNat_of_nonneg hnt] at h
  exact ⟨h.1, h.2.1, fun hmax => le_trans h.2.1 hmax⟩

/-- C12 at `occurrencesPerTrial = 2`, `numTrials = 4` and the draws
`[T, T, F, F, T, F, F, T]`. -/
theorem ctor_values_bounded_witness :
    (0 : Int) ≤ 2 ∧ (0 : Int) ≤ 4 ∧
    ∀ v ∈ StdMap.values (ctor 2 4 exampleDraws).mapNumPositiveOccurrencesToFrequency,
      0 ≤ v ∧ v ≤ 4 ∧ ((4 : Int) ≤ 2147483647 → v ≤ 2147483647) :=
  ⟨by decide, by decide, ctor_values_bounded 2 4 exampleDraws (by decide) (by decide)⟩

/-- C13 fails as stated: for the simulator built with `occurrencesPerTrial = 0` and
`numTrials = 1`, `print(1.0)` writes a bar of length `L = 1` for key `0`, and `print(2.0)`
writes a bar of length `1` as well, while `floor(L / 2)` is `0`.  Nor is the bar at the doubled
scale `ceil(L / 2)` for every scale: `print(0.1)` writes `11` markers and `print(0.2)` writes
`5`, while `ceil(11 / 2)` is `6`. -/
theorem print_double_scale_ne_floor_half :
    print 2 (ctor 0 1 (fun _ => 0)) 1 = .ok (⟨0, 1, [(0, 1)]⟩, "0\t" ++ stars 1 ++ "\n") ∧
      print 2 (ctor 0 1 (fun _ => 0)) (2 * 1)
        = .ok (⟨0, 1, [(0, 1)]⟩, "0\t" ++ stars 1 ++ "\n") ∧
      (1 : Nat) / 2 = 0 ∧
      "0\t" ++ stars 1 ++ "\n" ≠ "0\t" ++ stars (1 / 2) ++ "\n" ∧
      print 12 (ctor 0 1 (fun _ => 0)) oneTenth
        = .ok (⟨0, 1, [(0, 1)]⟩, "0\t" ++ stars 11 ++ "\n") ∧
      print 12 (ctor 0 1 (fun _ => 0)) (2 * oneTenth)
        = .ok (⟨0, 1, [(0, 1)]⟩, "0\t" ++ stars 5 ++ "\n") ∧
      (11 + 1) / 2 = 6 := by
  have hc : ctor 0 1 (fun _ => 0) = ⟨0, 1, [(0, 1)]⟩ := by decide
  rw [hc]
  have hg : StdMap.get [(0, 1)] 0 = 1 := by decide
  have h10 : print 12 ⟨0, 1, [(0, 1)]⟩ oneTenth
      = .ok (⟨0, 1, [(0, 1)]⟩, "0\t" ++ stars 11 ++ "\n") := by
    have h := print_run 12 ⟨0, 1, [(0, 1)]⟩ oneTenth (fun _ => 11) (by norm_num)
      (fun k hk0 hk => by
        have e : k = 0 := le_antisymm hk hk0
        rw [e, hg]
        exact barCount_oneTenth)
    rw [h]
    rfl
  have h5 : print 12 ⟨0, 1, [(0, 1)]⟩ (2 * oneTenth)
      = .ok (⟨0, 1, [(0, 1)]⟩, "0\t" ++ stars 5 ++ "\n") := by
    have e2 : 2 * oneTenth = oneFifth := by unfold oneTenth oneFifth; norm_num
    rw [e2]
    have h := print_run 12 ⟨0, 1, [(0, 1)]⟩ oneFifth (fun _ => 5) (by norm_num)
      (fun k hk0 hk => by
        have e : k = 0 := le_antisymm hk hk0
        rw [e, hg]
        exact barCount_oneFifth)
    rw [h]
    rfl
  refine ⟨?_, ?_, by decide, by decide, h10, h5, by norm_num⟩
  · norm_num [print, printLoop, barLoop, fadd, fmul, wrapInt, roundDouble_one,
      StdMap.subscript, StdMap.get, StdMap.find]
    decide
  · norm_num [print, printLoop, barLoop, fadd, fmul, wrapInt, roundDouble_two,
      StdMap.subscript, StdMap.get, StdMap.find]
    decide

/-- C13 as amended: for every simulator built with `occurrencesPerTrial` below the largest
`int` and every scale `s > 0` such that the accumulation at `s` and at `2 * s` makes no
rounding, `print(s)` and `print(2 * s)` both return once they have enough fuel, and the bar
`print(2 * s)` writes for each key has length `ceil(L / 2)`, that is `(L + 1) / 2` rounded
down, where `L` is the length of the bar `print(s)` writes for that key. -/
theorem print_double_scale (opt nt : Int) (rand : Nat → Nat) (s : ℚ) (hs : 0 < s)
    (hopt : opt < 2147483647)
    (hex : ∀ k, 0 ≤ k → k ≤ opt →
      ExactMultiples s (StdMap.get (ctor opt nt rand).mapNumPositiveOccurrencesToFrequency k))
    (hex2 : ∀ k, 0 ≤ k → k ≤ opt →
      ExactMultiples (2 * s)
        (StdMap.get (ctor opt nt rand).mapNumPositiveOccurrencesToFrequency k)) :
    ∃ N : Nat, ∀ fuel, N ≤ fuel → ∃ self1 self2 : NormalDistributionSimulation,
      print fuel (ctor opt nt rand) s
        = .ok (self1, renderLines (fun k => barLength
            (StdMap.get (ctor opt nt rand).mapNumPositiveOccurrencesToFrequency k) s)
            0 (opt + 1).toNat) ∧
      print fuel (ctor opt nt rand) (2 * s)
        = .ok (self2, renderLines (fun k => (barLength
            (StdMap.get (ctor opt nt rand).mapNumPositiveOccurrencesToFrequency k) s + 1) / 2)
            0 (opt + 1).toNat) := by
  obtain ⟨N1, hN1⟩ := print_exact (ctor opt nt rand) s hs hopt hex
  obtain ⟨N2, hN2⟩ := print_exact (ctor opt nt rand) (2 * s) (by linarith) hopt hex2
  refine ⟨max N1 N2, fun fuel hfuel => ?_⟩
  have h1 := hN1 fuel (le_trans (le_max_left _ _) hfuel)
  have h2 := hN2 fuel (le_trans (le_max_right _ _) hfuel)
  have e : (fun k => barLength
      (StdMap.get (ctor opt nt rand).mapNumPositiveOccurrencesToFrequency k) (2 * s))
      = fun k => (barLength
      (StdMap.get (ctor opt nt rand).mapNumPositiveOccurrencesToFrequency k) s + 1) / 2 :=
    funext fun k => barLength_double _ s hs
  rw [e] at h2
  exact ⟨_, _, h1, h2⟩

/-- C13 as amended, at `occurrencesPerTrial = 0`, `numTrials = 1` and `s = 1`. -/
theorem print_double_scale_witness :
    (0 : ℚ) < 1 ∧ (0 : Int) < 2147483647 ∧
    (∀ k, 0 ≤ k → k ≤ 0 →
      ExactMultiples 1
        (StdMap.get (ctor 0 1 (fun _ => 0)).mapNumPositiveOccurrencesToFrequency k)) ∧
    (∀ k, 0 ≤ k → k ≤ 0 →
      ExactMultiples (2 * 1)
        (StdMap.get (ctor 0 1 (fun _ => 0)).mapNumPositiveOccurrencesToFrequency k)) ∧
    ∃ N : Nat, ∀ fuel, N ≤ fuel → ∃ self1 self2 : NormalDistributionSimulation,
      print fuel (ctor 0 1 (fun _ => 0)) 1
        = .ok (self1, renderLines (fun k => barLength
            (StdMap.get (ctor 0 1 (fun _ => 0)).mapNumPositiveOccurrencesToFrequency k) 1)
            0 ((0 : Int) + 1).toNat) ∧
      print fuel (ctor 0 1 (fun _ => 0)) (2 * 1)
        = .ok (self2, renderLines (fun k => (barLength
            (StdMap.get (ctor 0 1 (fun _ => 0)).mapNumPositiveOccurrencesToFrequency k) 1 + 1) / 2)
            0 ((0 : Int) + 1).toNat) :=
  have h1 : ∀ k : Int, ExactMultiples 1
      (StdMap.get (ctor 0 1 (fun _ => 0)).mapNumPositiveOccurrencesToFrequency k) := fun k => by
    simpa using exactMultiples_ctor 1 (by norm_num) (by norm_num) 0 1 (fun _ => 0)
      (by norm_num) k
  have h2 : ∀ k : Int, ExactMultiples (2 * 1)
      (StdMap.get (ctor 0 1 (fun _ => 0)).mapNumPositiveOccurrencesToFrequency k) := fun k => by
    have := exactMultiples_ctor 2 (by norm_num) (by norm_num) 0 1 (fun _ => 0)
      (by norm_num) k
    rw [mul_one]
    simpa using this
  ⟨by norm_num, by norm_num, fun k _ _ => h1 k, fun k _ _ => h2 k,
    print_double_scale 0 1 (fun _ => 0) 1 (by norm_num) (by norm_num)
      (fun k _ _ => h1 k) (fun k _ _ => h2 k)⟩

/-- C14: rendering is monotonic, for scales `0 < s1 ≤ s2` and any fuel.  On any table, when
the bar loop of a key `j` at `s1` returns, having written `cj` markers, the bar loop of every
key `i` with `frequency[i] ≤ frequency[j]` returns as well, having written no more than `cj`
markers; and when the bar loop of a key `i` at `s1` returns, having written `c1` markers, its
bar loop at `s2` returns as well, having written no more than `c1` markers.  So whenever
`print(s1)` returns on a built simulator, its text is one line per key with the markers the bar
loop counts for it, `print(s2)` returns as well, with the same fuel, and likewise; if
`frequency[i] ≤ frequency[j]` the bar `print(s1)` writes for `i` is no longer than the bar it
writes for `j`, and for every key the bar `print(s2)` writes is no longer than the bar
`print(s1)` writes. -/
theorem print_bar_monotone (opt nt : Int) (rand : Nat → Nat) (s1 s2 : ℚ) (_hs1 : 0 < s1)
    (hs : s1 ≤ s2) (fuel : Nat) :
    (∀ (m : StdMap) (i j : Int) (out : String) (r : StdMap × String),
      StdMap.get m i ≤ StdMap.get m j →
      barLoop j s1 fuel 0 m out = .ok r →
      ∃ cj ci : Nat, ci ≤ cj ∧ r = (StdMap.subscript m j, out ++ stars cj) ∧
        barLoop i s1 fuel 0 m out = .ok (StdMap.subscript m i, out ++ stars ci)) ∧
    (∀ (m : StdMap) (i : Int) (out : String) (r : StdMap × String),
      barLoop i s1 fuel 0 m out = .ok r →
      ∃ c1 c2 : Nat, c2 ≤ c1 ∧ r = (StdMap.subscript m i, out ++ stars c1) ∧
        barLoop i s2 fuel 0 m out = .ok (StdMap.subscript m i, out ++ stars c2)) ∧
    ∀ r1 : NormalDistributionSimulation × String,
      print fuel (ctor opt nt rand) s1 = .ok r1 →
      ∃ self2 : NormalDistributionSimulation,
        r1.2 = renderLines (fun k => (barCount s1
            (StdMap.get (ctor opt nt rand).mapNumPositiveOccurrencesToFrequency k) fuel 0).getD 0)
            0 (opt + 1).toNat ∧
        print fuel (ctor opt nt rand) s2
          = .ok (self2, renderLines (fun k => (barCount s2
              (StdMap.get (ctor opt nt rand).mapNumPositiveOccurrencesToFrequency k) fuel 0).getD 0)
              0 (opt + 1).toNat) ∧
        (∀ i j, 0 ≤ i → i ≤ opt → 0 ≤ j → j ≤ opt →
          StdMap.get (ctor opt nt rand).mapNumPositiveOccurrencesToFrequency i
            ≤ StdMap.get (ctor opt nt rand).mapNumPositiveOccurrencesToFrequency j →
          (barCount s1
              (StdMap.get (ctor opt nt rand).mapNumPositiveOccurrencesToFrequency i) fuel 0).getD 0
            ≤ (barCount s1
              (StdMap.get (ctor opt nt rand).mapNumPositiveOccurrencesToFrequency j) fuel 0).getD 0) ∧
        (∀ i, 0 ≤ i → i ≤ opt →
          (barCount s2
              (StdMap.get (ctor opt nt rand).mapNumPositiveOccurrencesToFrequency i) fuel 0).getD 0
            ≤ (barCount s1
              (StdMap.get (ctor opt nt rand).mapNumPositiveOccurrencesToFrequency i) fuel 0).getD 0) := by
  refine ⟨fun m i j out r hle h => ?_, fun m i out r h => ?_, fun r1 h1 => ?_⟩
  · rw [barLoop_eq_barCount] at h
    cases hc : barCount s1 (StdMap.get m j) fuel 0 with
    | none => rw [hc] at h; simp at h
    | some cj =>
      rw [hc] at h
      obtain ⟨ci, hci, hi⟩ := barCount_mono_frequency s1 _ _ hle fuel 0 cj hc
      refine ⟨cj, ci, hci, (Except.ok.inj h).symm, ?_⟩
      rw [barLoop_eq_barCount, hi]
  · rw [barLoop_eq_barCount] at h
    cases hc : barCount s1 (StdMap.get m i) fuel 0 with
    | none => rw [hc] at h; simp at h
    | some c1 =>
      rw [hc] at h
      obtain ⟨c2, hc2, h2⟩ := barCount_mono_scale s1 s2 _ hs fuel 0 0 c1 le_rfl hc
      refine ⟨c1, c2, hc2, (Except.ok.inj h).symm, ?_⟩
      rw [barLoop_eq_barCount, h2]
  · obtain ⟨hopt, hall⟩ := print_ok_inv fuel (ctor opt nt rand) s1 r1 h1
    have hr := print_ok_eq fuel (ctor opt nt rand) s1 r1 h1
    have hopt1 : (ctor opt nt rand).occurrencesPerTrial = opt := rfl
    rw [hopt1] at hr hopt hall
    have hscale : ∀ k, 0 ≤ k → k ≤ opt → ∃ n2,
        barCount s2 (StdMap.get (ctor opt nt rand).mapNumPositiveOccurrencesToFrequency k) fuel 0
          = some n2 ∧
        n2 ≤ (barCount s1
          (StdMap.get (ctor opt nt rand).mapNumPositiveOccurrencesToFrequency k) fuel 0).getD 0 := by
      intro k hk0 hk
      obtain ⟨c, hc⟩ := hall k hk0 hk
      obtain ⟨n2, hn2, h2⟩ := barCount_mono_scale s1 s2 _ hs fuel 0 0 c le_rfl hc
      exact ⟨n2, h2, by rw [hc]; exact hn2⟩
    refine ⟨_, by rw [hr], print_run fuel (ctor opt nt rand) s2 _ hopt (fun k hk0 hk => ?_),
      fun i j hi0 hi hj0 hj hij => ?_, fun i hi0 hi => ?_⟩
    · obtain ⟨n2, h2, _⟩ := hscale k hk0 hk
      simp only [h2, Option.getD_some]
    · obtain ⟨c, hc⟩ := hall j hj0 hj
      obtain ⟨c', hc', h'⟩ := barCount_mono_frequency s1 _ _ hij fuel 0 c hc
      rw [hc, h']
      exact hc'
    · obtain ⟨n2, h2, hle⟩ := hscale i hi0 hi
      rw [h2]
      exact hle

/-- C14 at `occurrencesPerTrial = 2`, `numTrials = 4`, the draws `[T, T, F, F, T, F, F, T]`,
the scales `1` and `2` and five tests of fuel per bar, where the bar loop of key `1` at scale
`1` writes two markers and `print(1.0)` returns `"0\t*\n1\t**\n2\t*\n"`. -/
theorem print_bar_monotone_witness :
    (0 : ℚ) < 1 ∧ (1 : ℚ) ≤ 2 ∧
    barLoop 1 1 5 0 (ctor 2 4 exampleDraws).mapNumPositiveOccurrencesToFrequency "1\t"
      = .ok ([(0, 1), (1, 2), (2, 1), (3, 0)], "1\t**") ∧
    print 5 (ctor 2 4 exampleDraws) 1
      = .ok (⟨2, 4, [(0, 1), (1, 2), (2, 1), (3, 0)]⟩, "0\t*\n1\t**\n2\t*\n") ∧
    (∀ (m : StdMap) (i j : Int) (out : String) (r : StdMap × String),
      StdMap.get m i ≤ StdMap.get m j →
      barLoop j 1 5 0 m out = .ok r →
      ∃ cj ci : Nat, ci ≤ cj ∧ r = (StdMap.subscript m j, out ++ stars cj) ∧
        barLoop i 1 5 0 m out = .ok (StdMap.subscript m i, out ++ stars ci)) ∧
    (∀ (m : StdMap) (i : Int) (out : String) (r : StdMap × String),
      barLoop i 1 5 0 m out = .ok r →
      ∃ c1 c2 : Nat, c2 ≤ c1 ∧ r = (StdMap.subscript m i, out ++ stars c1) ∧
        barLoop i 2 5 0 m out = .ok (StdMap.subscript m i, out ++ stars c2)) ∧
    ∃ self2 : NormalDistributionSimulation,
      "0\t*\n1\t**\n2\t*\n" = renderLines (fun k => (barCount 1
          (StdMap.get (ctor 2 4 exampleDraws).mapNumPositiveOccurrencesToFrequency k) 5 0).getD 0)
          0 ((2 : Int) + 1).toNat ∧
      print 5 (ctor 2 4 exampleDraws) 2
        = .ok (self2, renderLines (fun k => (barCount 2
            (StdMap.get (ctor 2 4 exampleDraws).mapNumPositiveOccurrencesToFrequency k) 5 0).getD 0)
            0 ((2 : Int) + 1).toNat) ∧
      (∀ i j, 0 ≤ i → i ≤ 2 → 0 ≤ j → j ≤ 2 →
        StdMap.get (ctor 2 4 exampleDraws).mapNumPositiveOccurrencesToFrequency i
          ≤ StdMap.get (ctor 2 4 exampleDraws).mapNumPositiveOccurrencesToFrequency j →
        (barCount 1
            (StdMap.get (ctor 2 4 exampleDraws).mapNumPositiveOccurrencesToFrequency i) 5 0).getD 0
          ≤ (barCount 1
            (StdMap.get (ctor 2 4 exampleDraws).mapNumPositiveOccurrencesToFrequency j) 5 0).getD 0) ∧
      (∀ i, 0 ≤ i → i ≤ 2 →
        (barCount 2
            (StdMap.get (ctor 2 4 exampleDraws).mapNumPositiveOccurrencesToFrequency i) 5 0).getD 0
          ≤ (barCount 1
            (StdMap.get (ctor 2 4 exampleDraws).mapNumPositiveOccurrencesToFrequency i) 5 0).getD 0) :=
  have hc : ctor 2 4 exampleDraws = ⟨2, 4, [(0, 1), (1, 2), (2, 1), (3, 0)]⟩ := by decide
  have hb : barLoop 1 1 5 0 (ctor 2 4 exampleDraws).mapNumPositiveOccurrencesToFrequency "1\t"
      = .ok ([(0, 1), (1, 2), (2, 1), (3, 0)], "1\t**") := by
    rw [hc]
    norm_num [barLoop, fadd, fmul, roundDouble_one, roundDouble_two,
      StdMap.subscript, StdMap.get, StdMap.find]
    decide
  have hp : print 5 (ctor 2 4 exampleDraws) 1
      = .ok (⟨2, 4, [(0, 1), (1, 2), (2, 1), (3, 0)]⟩, "0\t*\n1\t**\n2\t*\n") := by
    rw [hc]
    norm_num [print, printLoop, barLoop, fadd, fmul, wrapInt, roundDouble_one, roundDouble_two,
      StdMap.subscript, StdMap.get, StdMap.find]
    decide
  ⟨by norm_num, by norm_num, hb, hp,
    (print_bar_monotone 2 4 exampleDraws 1 2 (by norm_num) (by norm_num) 5).1,
    (print_bar_monotone 2 4 exampleDraws 1 2 (by norm_num) (by norm_num) 5).2.1,
    (print_bar_monotone 2 4 exampleDraws 1 2 (by norm_num) (by norm_num) 5).2.2 _ hp⟩

/-- C15: for every simulator built with `occurrencesPerTrial ≥ 0` and `numTrials ≥ 1` and
every `scale ≤ 0`, `print(scale)` does not terminate: there is a first key in
`[0, occurrencesPerTrial]` with a positive frequency, its bar loop exhausts any fuel, and so
does `print`. -/
theorem print_never_returns_of_nonpos_scale (opt nt : Int) (rand : Nat → Nat) (scale : ℚ)
    (hopt : 0 ≤ opt) (hnt : 1 ≤ nt) (hs : scale ≤ 0) :
    ∃ k : Int, 0 ≤ k ∧ k ≤ opt ∧
      0 < StdMap.get (ctor opt nt rand).mapNumPositiveOccurrencesToFrequency k ∧
      (∀ j, 0 ≤ j → j < k →
        StdMap.get (ctor opt nt rand).mapNumPositiveOccurrencesToFrequency j = 0) ∧
      (∀ (fuel : Nat) (out : String),
        barLoop k scale fuel 0
          (touched (ctor opt nt rand).mapNumPositiveOccurrencesToFrequency 0 k.toNat) out
          = .error .outOfFuel) ∧
      ∀ fuel : Nat, print fuel (ctor opt nt rand) scale = .error .outOfFuel := by
  obtain ⟨k, hk0, hk, hpos, hfirst⟩ := exists_first_positive opt nt rand hopt hnt
  refine ⟨k, hk0, hk, hpos, hfirst, fun fuel out => ?_, fun fuel => ?_⟩
  · rw [barLoop_eq_barCount, StdMap.get_touched,
      barCount_diverges scale _ hs hpos fuel 0 le_rfl]
  · exact print_diverges fuel (ctor opt nt rand) scale
      ⟨k, hk0, hk, barCount_diverges scale _ hs hpos fuel 0 le_rfl⟩

/-- C15 at `occurrencesPerTrial = 0`, `numTrials = 1` and `scale = 0`. -/
theorem print_never_returns_of_nonpos_scale_witness :
    (0 : Int) ≤ 0 ∧ (1 : Int) ≤ 1 ∧ (0 : ℚ) ≤ 0 ∧
    ∃ k : Int, 0 ≤ k ∧ k ≤ 0 ∧
      0 < StdMap.get (ctor 0 1 (fun _ => 0)).mapNumPositiveOccurrencesToFrequency k ∧
      (∀ j, 0 ≤ j → j < k →
        StdMap.get (ctor 0 1 (fun _ => 0)).mapNumPositiveOccurrencesToFrequency j = 0) ∧
      (∀ (fuel : Nat) (out : String),
        barLoop k 0 fuel 0
          (touched (ctor 0 1 (fun _ => 0)).mapNumPositiveOccurrencesToFrequency 0 k.toNat) out
          = .error .outOfFuel) ∧
      ∀ fuel : Nat, print fuel (ctor 0 1 (fun _ => 0)) 0 = .error .outOfFuel :=
  ⟨le_refl 0, le_refl 1, le_refl 0,
    print_never_returns_of_nonpos_scale 0 1 (fun _ => 0) 0 (le_refl 0) (le_refl 1) (le_refl 0)⟩

/-- C16 fails as stated: `print` need not terminate for a positive scale.  Built with
`occurrencesPerTrial = 0` and `numTrials = 1`, at the scale `2 ^ (-60)` the bar loop of key `0`
exhausts any fuel (the accumulator climbs to `2 ^ (-7)`, where adding `2 ^ (-60)` changes
nothing), and so does `print`; and built with `occurrencesPerTrial = 2147483647`, the outer
loop of `print(1.0)` does not stop after `occurrencesPerTrial + 1` iterations: `print`
exhausts any fuel. -/
theorem print_terminates_fails :
    (0 : ℚ) < 1 / 2 ^ 60 ∧
      (∀ (fuel : Nat) (out : String),
        barLoop 0 (1 / 2 ^ 60) fuel 0
          (ctor 0 1 (fun _ => 0)).mapNumPositiveOccurrencesToFrequency out
          = .error .outOfFuel) ∧
      (∀ fuel, print fuel (ctor 0 1 (fun _ => 0)) (1 / 2 ^ 60) = .error .outOfFuel) ∧
      ∀ fuel, print fuel (ctor 2147483647 0 (fun _ => 0)) 1 = .error .outOfFuel := by
  have hg : StdMap.get (ctor 0 1 (fun _ => 0)).mapNumPositiveOccurrencesToFrequency 0 = 1 := by
    decide
  refine ⟨by norm_num, fun fuel out => ?_, fun fuel => ?_,
    fun fuel => print_never_of_intMax fuel _ 1 (le_refl _)⟩
  · rw [barLoop_eq_barCount, hg, barCount_stall fuel]
  · apply print_diverges
    refine ⟨0, le_rfl, le_rfl, ?_⟩
    rw [hg]
    exact barCount_stall fuel

/-- C16 as amended: for every simulator built with `occurrencesPerTrial` below the largest
`int` and every `scale > 0` whose accumulation makes no rounding, `print(scale)` terminates.
With enough fuel the bar loop of every key in `[0, occurrencesPerTrial]` returns, the outer
loop leaves by its own test after exactly `occurrencesPerTrial + 1` iterations (none when
`occurrencesPerTrial` is negative) whatever larger bound its iteration count is given, and
`print` returns. -/
theorem print_terminates (opt nt : Int) (rand : Nat → Nat) (scale : ℚ) (hs : 0 < scale)
    (hopt : opt < 2147483647)
    (hex : ∀ k, 0 ≤ k → k ≤ opt →
      ExactMultiples scale (StdMap.get (ctor opt nt rand).mapNumPositiveOccurrencesToFrequency k)) :
    ∃ N : Nat, ∀ fuel, N ≤ fuel →
      (∀ k, 0 ≤ k → k ≤ opt → ∀ (m : StdMap) (out : String),
        (∀ j, StdMap.get m j
          = StdMap.get (ctor opt nt rand).mapNumPositiveOccurrencesToFrequency j) →
        ∃ r, barLoop k scale fuel 0 m out = .ok r) ∧
      (∀ n : Nat, (opt + 1).toNat ≤ n →
        printLoop fuel opt scale n 0 (ctor opt nt rand).mapNumPositiveOccurrencesToFrequency ""
          = .ok (touched (ctor opt nt rand).mapNumPositiveOccurrencesToFrequency 0
                  (opt + 1).toNat,
                 renderLines (fun k => barLength
                   (StdMap.get (ctor opt nt rand).mapNumPositiveOccurrencesToFrequency k) scale)
                   0 (opt + 1).toNat)) ∧
      (opt < 0 → ∀ n : Nat,
        printLoop fuel opt scale n 0 (ctor opt nt rand).mapNumPositiveOccurrencesToFrequency ""
          = .ok ((ctor opt nt rand).mapNumPositiveOccurrencesToFrequency, "")) ∧
      ∃ r, print fuel (ctor opt nt rand) scale = .ok r := by
  obtain ⟨N, hN⟩ := exists_fuel
    (fun k => barLength
      (StdMap.get (ctor opt nt rand).mapNumPositiveOccurrencesToFrequency k) scale)
    (opt + 1).toNat
  obtain ⟨N2, hN2⟩ := print_exact (ctor opt nt rand) scale hs hopt hex
  refine ⟨max N N2, fun fuel hfuel => ?_⟩
  have hbar : ∀ k, 0 ≤ k → k ≤ opt →
      barCount scale (StdMap.get (ctor opt nt rand).mapNumPositiveOccurrencesToFrequency k) fuel 0
        = some (barLength
          (StdMap.get (ctor opt nt rand).mapNumPositiveOccurrencesToFrequency k) scale) := by
    intro k hk0 hk
    have hlt : barLength
        (StdMap.get (ctor opt nt rand).mapNumPositiveOccurrencesToFrequency k) scale < fuel := by
      refine lt_of_lt_of_le (hN k hk0 ?_) (le_trans (le_max_left _ _) hfuel)
      rw [Int.toNat_of_nonneg (by omega)]
      omega
    have := barCount_exact scale _ hs (hex k hk0 hk) fuel 0 (Nat.zero_le _) (by simpa using hlt)
    simpa using this
  have hloop : ∀ n : Nat, (opt + 1).toNat ≤ n →
      printLoop fuel opt scale n 0 (ctor opt nt rand).mapNumPositiveOccurrencesToFrequency ""
        = .ok (touched (ctor opt nt rand).mapNumPositiveOccurrencesToFrequency 0
                (opt + 1).toNat,
               renderLines (fun k => barLength
                 (StdMap.get (ctor opt nt rand).mapNumPositiveOccurrencesToFrequency k) scale)
                 0 (opt + 1).toNat) := by
    intro n hn
    have h := printLoop_run fuel opt scale _ _ hopt hbar n 0
      (ctor opt nt rand).mapNumPositiveOccurrencesToFrequency "" le_rfl
      (by rw [sub_zero]; exact hn) (fun _ => rfl)
    rw [sub_zero] at h
    rw [h]
    simp
  refine ⟨fun k hk0 hk m out hm => ?_, hloop, ?_,
    ⟨_, hN2 fuel (le_trans (le_max_right _ _) hfuel)⟩⟩
  · rw [barLoop_eq_barCount, hm k, hbar k hk0 hk]
    exact ⟨_, rfl⟩
  · intro hneg n
    have e : (opt + 1).toNat = 0 := by omega
    have h := hloop n (by omega)
    rw [e] at h
    rw [h]
    rfl

/-- C16 as amended, at `occurrencesPerTrial = 2`, `numTrials = 4`, the draws
`[T, T, F, F, T, F, F, T]` and `scale = 2`. -/
theorem print_terminates_witness :
    (0 : ℚ) < 2 ∧ (2 : Int) < 2147483647 ∧
    (∀ k, 0 ≤ k → k ≤ 2 →
      ExactMultiples 2
        (StdMap.get (ctor 2 4 exampleDraws).mapNumPositiveOccurrencesToFrequency k)) ∧
    ∃ N : Nat, ∀ fuel, N ≤ fuel →
      (∀ k, 0 ≤ k → k ≤ 2 → ∀ (m : StdMap) (out : String),
        (∀ j, StdMap.get m j
          = StdMap.get (ctor 2 4 exampleDraws).mapNumPositiveOccurrencesToFrequency j) →
        ∃ r, barLoop k 2 fuel 0 m out = .ok r) ∧
      (∀ n : Nat, ((2 : Int) + 1).toNat ≤ n →
        printLoop fuel 2 2 n 0 (ctor 2 4 exampleDraws).mapNumPositiveOccurrencesToFrequency ""
          = .ok (touched (ctor 2 4 exampleDraws).mapNumPositiveOccurrencesToFrequency 0
                  ((2 : Int) + 1).toNat,
                 renderLines (fun k => barLength
                   (StdMap.get (ctor 2 4 exampleDraws).mapNumPositiveOccurrencesToFrequency k) 2)
                   0 ((2 : Int) + 1).toNat)) ∧
      ((2 : Int) < 0 → ∀ n : Nat,
        printLoop fuel 2 2 n 0 (ctor 2 4 exampleDraws).mapNumPositiveOccurrencesToFrequency ""
          = .ok ((ctor 2 4 exampleDraws).mapNumPositiveOccurrencesToFrequency, "")) ∧
      ∃ r, print fuel (ctor 2 4 exampleDraws) 2 = .ok r :=
  have hex : ∀ k : Int, ExactMultiples 2
      (StdMap.get (ctor 2 4 exampleDraws).mapNumPositiveOccurrencesToFrequency k) := fun k => by
    simpa using exactMultiples_ctor 2 (by norm_num) (by norm_num) 2 4 exampleDraws
      (by norm_num) k
  ⟨by norm_num, by norm_num, fun k _ _ => hex k,
    print_terminates 2 4 exampleDraws 2 (by norm_num) (by norm_num) (fun k _ _ => hex k)⟩

/-- C18: for every `occurrencesPerTrial ≥ 0`, `numTrials ≥ 0` and draw sequence, every entry of
the constructed table whose key lies outside `[0, occurrencesPerTrial]` holds the value `0`
(and such a key reads `0`); hence the frequencies of the keys `0 .. occurrencesPerTrial`, those
`print` iterates over, sum to `numTrials`. -/
theorem ctor_outside_range_zero (opt nt : Int) (rand : Nat → Nat) (hopt : 0 ≤ opt)
    (hnt : 0 ≤ nt) :
    (∀ e ∈ (ctor opt nt rand).mapNumPositiveOccurrencesToFrequency,
      (e.1 < 0 ∨ opt < e.1) → e.2 = 0) ∧
    (∀ k, (k < 0 ∨ opt < k) →
      StdMap.get (ctor opt nt rand).mapNumPositiveOccurrencesToFrequency k = 0) ∧
    ∑ k ∈ Finset.range (opt.toNat + 1),
      StdMap.get (ctor opt nt rand).mapNumPositiveOccurrencesToFrequency (k : Int) = nt := by
  have hget : ∀ k, StdMap.get (ctor opt nt rand).mapNumPositiveOccurrencesToFrequency k
      = (trialsWithPositives rand opt.toNat nt.toNat k : Int) := fun k => by
    have h := (tallied_spec rand opt nt _ (cleared_spec nt).1 (cleared_spec nt).2).2.2 k
    simpa only [ctor] using h
  refine ⟨fun e he hout => ?_, fun k hk => ?_, ?_⟩
  · rcases (ctor_entries opt nt rand hopt e he).2.2 with h | h
    · exact h
    · omega
  · rw [hget, trialsWithPositives_outside rand opt.toNat nt.toNat k (by omega)]
    rfl
  · simp only [hget]
    rw [← Nat.cast_sum, sum_trialsWithPositives, Int.toNat_of_nonneg hnt]

/-- C18 at `occurrencesPerTrial = 2`, `numTrials = 4` and the draws
`[T, T, F, F, T, F, F, T]`. -/
theorem ctor_outside_range_zero_witness :
    (0 : Int) ≤ 2 ∧ (0 : Int) ≤ 4 ∧
    (∀ e ∈ (ctor 2 4 exampleDraws).mapNumPositiveOccurrencesToFrequency,
      (e.1 < 0 ∨ 2 < e.1) → e.2 = 0) ∧
    (∀ k, (k < 0 ∨ 2 < k) →
      StdMap.get (ctor 2 4 exampleDraws).mapNumPositiveOccurrencesToFrequency k = 0) ∧
    ∑ k ∈ Finset.range ((2 : Int).toNat + 1),
      StdMap.get (ctor 2 4 exampleDraws).mapNumPositiveOccurrencesToFrequency (k : Int) = 4 :=
  ⟨by decide, by decide, ctor_outside_range_zero 2 4 exampleDraws (by decide) (by decide)⟩

/-- C19: mirror symmetry of the tally.  For every `occurrencesPerTrial ≥ 0`, `numTrials ≥ 0`
and draw sequence `rand`, if `rand'` is `rand` with every draw negated (a draw of `rand'` is
positive exactly when the draw of `rand` at that position is not), then for every `k` in
`[0, occurrencesPerTrial]` the table built from `rand'` reads at key `k` the value the table
built from `rand` reads at key `occurrencesPerTrial - k`. -/
theorem ctor_mirror (opt nt : Int) (rand rand' : Nat → Nat) (hopt : 0 ≤ opt) (_hnt : 0 ≤ nt)
    (hneg : ∀ n, rand' n % 2 = 0 ↔ ¬ rand n % 2 = 0) (k : Int) (_hk0 : 0 ≤ k) (_hk : k ≤ opt) :
    StdMap.get (ctor opt nt rand').mapNumPositiveOccurrencesToFrequency k
      = StdMap.get (ctor opt nt rand).mapNumPositiveOccurrencesToFrequency (opt - k) := by
  have h1 := (tallied_spec rand' opt nt _ (cleared_spec nt).1 (cleared_spec nt).2).2.2 k
  have h2 := (tallied_spec rand opt nt _ (cleared_spec nt).1 (cleared_spec nt).2).2.2 (opt - k)
  simp only [ctor]
  rw [h1, h2, trialsWithPositives_negated rand rand' hneg, Int.toNat_of_nonneg hopt]

/-- C19 at `occurrencesPerTrial = 2`, `numTrials = 4`, the draws `[T, T, F, F, T, F, F, T]` and
their negation, and `k = 0`: the mirrored table reads `1` at key `0`, as the table reads at
key `2`. -/
theorem ctor_mirror_witness :
    (0 : Int) ≤ 2 ∧ (0 : Int) ≤ 4 ∧
    (∀ n, (exampleDraws n + 1) % 2 = 0 ↔ ¬ exampleDraws n % 2 = 0) ∧
    (0 : Int) ≤ 0 ∧ (0 : Int) ≤ 2 ∧
    StdMap.get (ctor 2 4 (fun n => exampleDraws n + 1)).mapNumPositiveOccurrencesToFrequency 0
      = StdMap.get (ctor 2 4 exampleDraws).mapNumPositiveOccurrencesToFrequency (2 - 0) ∧
    StdMap.get (ctor 2 4 (fun n => exampleDraws n + 1)).mapNumPositiveOccurrencesToFrequency 0
      = 1 :=
  ⟨by decide, by decide, fun n => by omega, by decide, by decide,
    ctor_mirror 2 4 exampleDraws (fun n => exampleDraws n + 1) (by decide) (by decide)
      (fun n => by beta_reduce; omega) 0 (by decide) (by decide),
    by decide⟩
